import Mathlib

/-!
Verification development for the cbz_renamer repository (src/main.py).

The program walks an input directory tree, and for each archive file
(suffix ".cbz" or ".zip") extracts it to a temporary directory, computes a
rename mapping over the extracted tree (build_rename_mapping), and writes a
new archive under the output directory (rebuild_cbz, process_path).

We shallow-embed the relevant parts of main.py over an explicit model of
directory trees.  Filesystem entries are modelled by the mutual inductive
types Node / Children below: a node is a regular file (with its content), a
directory (with an ordered list of named children, mirroring the order in
which os.scandir yields them), or some other kind of entry (socket, broken
symlink, ...).  Paths are lists of name segments.
-/

/-- A sequence of bytes (file content). -/
abbrev Bytes := List Nat

/-- A relative filesystem path, as a list of name segments. -/
abbrev FsPath := List String

/-- The content of a ZIP container: a list of entries, each an archive-internal
path (the arcname, split at the slash separators) together with its data. -/
abbrev Archive := List (FsPath × Bytes)

mutual

/-- A filesystem node: a regular file carrying content of type alpha, a
directory with named children, or an entry of any other kind. -/
inductive Node (α : Type) where
  | file (content : α)
  | dir (children : Children α)
  | other

/-- The ordered children of a directory (name plus node, in directory order). -/
inductive Children (α : Type) where
  | nil
  | cons (name : String) (child : Node α) (rest : Children α)

end

/-- True when the node is a directory (models pathlib Path.is_dir). -/
def Node.isDir {α : Type} : Node α → Bool
  | .dir _ => true
  | _ => false

/-- True when the node is a regular file (models pathlib Path.is_file). -/
def Node.isFile {α : Type} : Node α → Bool
  | .file _ => true
  | _ => false

/-- True when the directory listing is empty. -/
def Children.isNil {α : Type} : Children α → Bool
  | .nil => true
  | _ => false

/-- The names of the children, in directory order. -/
def namesOf {α : Type} : Children α → List String
  | .nil => []
  | .cons n _ rest => n :: namesOf rest

/-- Look a child up by name (first binding wins, as on a real filesystem
where names are unique). -/
def lookupChild {α : Type} : Children α → String → Option (Node α)
  | .nil, _ => none
  | .cons m t rest, n => if m = n then some t else lookupChild rest n

/-- Replace the child named n (keeping its position), or append it at the
end of the listing when absent — the effect of creating or overwriting an
entry in a directory. -/
def setChild {α : Type} : Children α → String → Node α → Children α
  | .nil, n, v => .cons n v .nil
  | .cons m t rest, n, v =>
      if m = n then .cons n v rest else .cons m t (setChild rest n v)

/-- All strings in the list are pairwise distinct. -/
def allDistinct : List String → Bool
  | [] => true
  | x :: xs => (!decide (x ∈ xs)) && allDistinct xs

mutual

/-- Well-formedness of a tree as a real filesystem: the names of the
children of every directory are pairwise distinct. -/
def Node.wf {α : Type} : Node α → Bool
  | .file _ => true
  | .other => true
  | .dir cs => allDistinct (namesOf cs) && Children.wfAll cs

/-- Well-formedness of every node in a directory listing. -/
def Children.wfAll {α : Type} : Children α → Bool
  | .nil => true
  | .cons _ t rest => t.wf && Children.wfAll rest

end

/-- Resolve a relative path from a node, descending through directories
(first binding wins at each level). -/
def entryAt {α : Type} : Node α → FsPath → Option (Node α)
  | t, [] => some t
  | .dir cs, n :: rest =>
      match lookupChild cs n with
      | some t => entryAt t rest
      | none => none
  | _, _ :: _ => none

/-- Read the content of the regular file at a relative path, if any. -/
def fileAt {α : Type} : Node α → FsPath → Option α
  | .file a, [] => some a
  | .dir cs, n :: rest =>
      match lookupChild cs n with
      | some t => fileAt t rest
      | none => none
  | _, _ => none

/-!
Python pathlib suffix semantics.  PurePath.suffix returns the part of the
final name from its last dot, provided that dot is neither the leading
character nor the trailing character of the name; otherwise the suffix is
empty.
-/

/-- Index of the last occurrence of the dot character in a list of
characters, if any. -/
def lastDotIdx : List Char → Option Nat
  | [] => none
  | c :: rest =>
      match lastDotIdx rest with
      | some i => some (i + 1)
      | none => if c = '.' then some 0 else none

/-- The pathlib suffix of a file name: the substring from the last dot when
that dot is at an index i with 0 < i < length - 1, else the empty string. -/
def pySuffix (name : String) : String :=
  let cs := name.toList
  match lastDotIdx cs with
  | some i => if 0 < i ∧ i < cs.length - 1 then String.mk (cs.drop i) else ""
  | none => ""

/-- Membership of the exact (case-sensitive) suffix in VALID_SUFFIXES,
as tested by validate_input_path (line 84 of main.py). -/
def validSuffixExact (name : String) : Bool :=
  pySuffix name = ".cbz" || pySuffix name = ".zip"

/-- ASCII lowercase of one character (the effect of str.lower on the
characters occurring in file suffixes). -/
def lowerChar (c : Char) : Char :=
  if 'A' ≤ c ∧ c ≤ 'Z' then Char.ofNat (c.toNat + 32) else c

/-- ASCII lowercase of a string, modelling str.lower. -/
def lowerStr (s : String) : String :=
  String.mk (s.toList.map lowerChar)

/-- Membership of the lowercased suffix in VALID_SUFFIXES, as tested by
process_path (line 133 of main.py: file.suffix.lower()). -/
def validSuffixLower (name : String) : Bool :=
  lowerStr (pySuffix name) = ".cbz" || lowerStr (pySuffix name) = ".zip"

/-!
build_rename_mapping (main.py lines 176-204).

The python function walks the extracted tree; for every regular file it
computes zip_path, the path of the file relative to the extraction root, and
stores mapping[sub_path] = zip_path.joinpath(zip_path.as_posix().replace(slash, underscore)).
Keys are stored as the absolute sub_path = prefix / zip_path where the prefix
is the constant extraction root; we represent keys relative to that root,
i.e. directly as the zip path.  The mapping is a python dict built by
mapping[k] = v assignments and mapping.update(recursive result); we model the
dict as an insertion-ordered association list with the exact dict-update
semantics (replace in place when the key exists, append otherwise).
-/

/-- The new archive-internal path computed for a file at zip path p: the
whole zip path, with one extra final component obtained by joining all
segments of the zip path with an underscore. -/
def zipJoin (p : FsPath) : FsPath :=
  p ++ [String.intercalate "_" p]

/-- Whether an association list binds the given key. -/
def hasKey (m : List (FsPath × FsPath)) (k : FsPath) : Bool :=
  m.any (fun e => decide (e.1 = k))

/-- Python dict assignment d[k] = v on an insertion-ordered association
list: replace the binding in place when the key exists, append otherwise. -/
def dictInsert (m : List (FsPath × FsPath)) (kv : FsPath × FsPath) :
    List (FsPath × FsPath) :=
  if hasKey m kv.1 then m.map (fun e => if e.1 = kv.1 then kv else e)
  else m ++ [kv]

/-- Python dict.update: insert every binding of the second dict, in order. -/
def dictUpdate (m m2 : List (FsPath × FsPath)) : List (FsPath × FsPath) :=
  m2.foldl dictInsert m

mutual

/-- The recursive body of build_rename_mapping at a node whose path relative
to the extraction root is rel.  A non-directory argument yields the empty
mapping (the function is only ever invoked on directories). -/
def buildAux {α : Type} : Node α → FsPath → List (FsPath × FsPath)
  | .dir cs, rel => buildChildren cs rel []
  | _, _ => []

/-- The for-loop of build_rename_mapping: iterate over the children in
directory order, threading the dict m.  A directory child contributes its
recursive mapping via dict.update; a regular file child contributes the
binding zip_path maps-to zipJoin zip_path; any other child is skipped. -/
def buildChildren {α : Type} : Children α → FsPath → List (FsPath × FsPath) →
    List (FsPath × FsPath)
  | .nil, _, m => m
  | .cons n t rest, rel, m =>
      match t with
      | .dir cs => buildChildren rest rel (dictUpdate m (buildAux (Node.dir cs) (rel ++ [n])))
      | .file _ => buildChildren rest rel (dictInsert m (rel ++ [n], zipJoin (rel ++ [n])))
      | .other => buildChildren rest rel m

end

/-- build_rename_mapping of main.py, invoked at the extraction root (the
default prefix = path case). -/
def build_rename_mapping {α : Type} (t : Node α) : List (FsPath × FsPath) :=
  buildAux t []

/-!
validate_input_path (main.py lines 56-93).

Returns False on a non-directory.  The emptiness test on line 70 only logs
and does not return, so it has no observable effect.  The loop then scans
the children: a child that is a directory, when recurse is set, is accepted
iff the recursive call accepts it; EVERY other child — regular file, entry
of another kind, or a directory when recurse is not set — is accepted iff
its exact (case-sensitive) pathlib suffix is in VALID_SUFFIXES.  The loop
returns True on the first accepted child, else False after the loop.
-/

mutual

/-- validate_input_path of main.py. -/
def validate_input_path {α : Type} : Node α → Bool → Bool
  | .dir cs, recurse => anyValidChild cs recurse
  | _, _ => false

/-- The scanning for-loop of validate_input_path over the children. -/
def anyValidChild {α : Type} : Children α → Bool → Bool
  | .nil, _ => false
  | .cons n t rest, recurse =>
      (match t with
       | .dir cs =>
           if recurse then validate_input_path (Node.dir cs) recurse
           else validSuffixExact n
       | _ => validSuffixExact n)
      || anyValidChild rest recurse

end

/-!
validate_output_path (main.py lines 96-117).

path.exists() false: accept.  Otherwise any(path.iterdir()) is evaluated:
on an existing entry that is not a directory, iterdir raises
NotADirectoryError, which propagates out of the function.  On a directory:
empty accepts, non-empty accepts iff force.  The argument is an
Option (Node alpha): none models a non-existent path.
-/

/-- The python exception raised out of the modelled fragment. -/
inductive PyErr where
  | notADirectoryError
  | isADirectoryError
deriving DecidableEq, Repr

/-- validate_output_path of main.py: a Bool result, or a raised exception. -/
def validate_output_path {α : Type} (node : Option (Node α)) (force : Bool) :
    Except PyErr Bool :=
  match node with
  | none => .ok true
  | some (.dir cs) =>
      if cs.isNil then .ok true
      else if force then .ok true else .ok false
  | some _ => .error .notADirectoryError

/-!
Extraction (zipfile.ZipFile.extractall) builds a directory tree from the
archive entries, creating intermediate directories and writing each entry
as a regular file, in entry order.
-/

/-- The subdirectory to descend into while extracting: the existing child
directory if there is one, else a freshly created empty directory (also on
a conflicting non-directory entry, which cannot arise for a well-formed
archive). -/
def asDir : Option (Node Bytes) → Node Bytes
  | some (.dir cs) => .dir cs
  | _ => .dir .nil

/-- Write one archive entry at the given relative path beneath a node,
creating intermediate directories. -/
def insertEntry (t : Node Bytes) (p : FsPath) (b : Bytes) : Node Bytes :=
  match t, p with
  | t, [] => t
  | Node.dir cs, [n] => .dir (setChild cs n (.file b))
  | Node.dir cs, n :: m :: rest =>
      .dir (setChild cs n (insertEntry (asDir (lookupChild cs n)) (m :: rest) b))
  | Node.file c, _ :: _ => Node.file c
  | Node.other, _ :: _ => Node.other

/-- extractall: write every entry of the archive, in order, into an empty
extraction root. -/
def extractall (a : Archive) : Node Bytes :=
  a.foldl (fun t e => insertEntry t e.1 e.2) (Node.dir .nil)

/-- Segment-wise prefix test on paths. -/
def pfxOf : FsPath → FsPath → Bool
  | [], _ => true
  | _, [] => false
  | a :: p, b :: q => a = b && pfxOf p q

/-- Two paths are incomparable: neither is a (not necessarily proper)
prefix of the other.  Distinct entries of a well-formed archive are
pairwise incomparable (no duplicate entries, and no entry path passing
through another entry as if it were a directory). -/
def incomp (p q : FsPath) : Bool :=
  !pfxOf p q && !pfxOf q p

/-- Pairwise incomparability of a list of paths. -/
def pairwiseIncomp : List FsPath → Bool
  | [] => true
  | p :: rest => rest.all (incomp p) && pairwiseIncomp rest

/-- A well-formed archive: every entry path is nonempty, and entry paths
are pairwise incomparable. -/
def wfArchive (a : Archive) : Bool :=
  a.all (fun e => !e.1.isEmpty) && pairwiseIncomp (a.map Prod.fst)

/-!
rebuild_cbz (main.py lines 153-173).

with tempfile.TemporaryDirectory() as tmp_dir: extract the input archive
into it, compute the rename mapping over the extraction root, and write a
new archive containing, for every binding of the mapping in order, the
content of the file at the key under the mapped value as arcname.  The
with-statement guarantees removal of the temporary directory on every exit
from its body, normal or exceptional.
-/

/-- The pure value of the rebuilt archive: one output entry per mapping
binding, in mapping order, carrying the bytes read back from the extracted
tree. -/
def rebuildArchive (a : Archive) : Archive :=
  let t := extractall a
  (build_rename_mapping t).filterMap
    (fun kv => (fileAt t kv.1).map (fun b => (kv.2, b)))

/-- Errors surfaced by rebuild_cbz: an unreadable or corrupt input archive
(zipfile raises on opening), or an unwritable destination (opening the
output for writing fails). -/
inductive RebuildErr where
  | archiveReadError
  | archiveWriteError
deriving DecidableEq, Repr

/-- Accounting of scoped temporary extraction directories: how many are
currently live, and how many were ever acquired. -/
structure TempState where
  live : Nat
  acquired : Nat
deriving DecidableEq, Repr

/-- The semantics of the python with-statement over
tempfile.TemporaryDirectory: acquire a fresh temporary directory, run the
body, and release the directory on every exit path — whether the body
returns a value or raises. -/
def withTempDir {E A : Type} (body : TempState → TempState × Except E A)
    (ts : TempState) : TempState × Except E A :=
  let ts1 : TempState := ⟨ts.live + 1, ts.acquired + 1⟩
  let r := body ts1
  (⟨r.1.live - 1, r.1.acquired⟩, r.2)

/-- rebuild_cbz of main.py.  The input is none when the input file cannot
be read as a ZIP archive (zipfile.ZipFile raises); destWritable is false
when the destination cannot be created.  Both failures occur inside the
with-block. -/
def rebuild_cbz (input : Option Archive) (destWritable : Bool)
    (ts : TempState) : TempState × Except RebuildErr Archive :=
  withTempDir
    (fun ts1 =>
      match input with
      | none => (ts1, .error .archiveReadError)
      | some a =>
          if destWritable then (ts1, .ok (rebuildArchive a))
          else (ts1, .error .archiveWriteError))
    ts

/-!
process_path (main.py lines 120-150).

For every direct child of the input directory, in directory order:
  - a regular file falls through to the suffix test;
  - a directory, when recurse is set, is processed recursively (same
    output directory) and then — the loop body has no continue after the
    recursive call — ALSO falls through to the suffix test;
  - a directory when recurse is not set, and any other kind of entry,
    is skipped (continue);
  - the suffix test compares file.suffix.lower() against VALID_SUFFIXES
    and skips on failure;
  - output_file = output_path / file.name; if output_file is an existing
    file and force is not set, skip;
  - otherwise mkdir the output directory and call rebuild_cbz(file,
    output_file).  Calling rebuild_cbz on a directory makes
    zipfile.ZipFile raise IsADirectoryError, aborting the whole run.

All recursion levels share the single flat output directory, so the output
store is modelled as a map from file name to the archive written there.
Events record each rebuild_cbz invocation.  The aborted flag models an
exception propagating out of the run: once set, no further iteration of
any loop level executes.
-/

/-- One observable rebuild_cbz invocation made by process_path:
rebuildFile outName src is a rebuild of the source archive src written to
output entry outName; rebuildDir outName is an invocation whose input is a
directory (it raises IsADirectoryError). -/
inductive Event where
  | rebuildFile (outName : String) (src : Archive)
  | rebuildDir (outName : String)
deriving DecidableEq, Repr

/-- The name of the output entry an event targets. -/
def Event.outName : Event → String
  | .rebuildFile n _ => n
  | .rebuildDir n => n

/-- The flat output directory: file name to archive content. -/
abbrev OutFiles := String → Option Archive

/-- Point update of the output store (the effect of writing one output
archive). -/
def updateFn (f : OutFiles) (n : String) (v : Archive) : OutFiles :=
  fun m => if m = n then some v else f m

/-- The state threaded through a run of process_path: the output
directory, the rebuild_cbz invocations so far (in order), and whether an
exception is propagating. -/
structure RunSt where
  out : OutFiles
  events : List Event
  aborted : Bool

/-- The file branch of the loop body: suffix test, already-processed
test, then rebuild and write. -/
def stepFile (n : String) (a : Archive) (force : Bool) (s : RunSt) : RunSt :=
  if validSuffixLower n then
    if (s.out n).isSome && !force then s
    else
      { out := updateFn s.out n (rebuildArchive a),
        events := s.events ++ [Event.rebuildFile n (rebuildArchive a)],
        aborted := false }
  else s

/-- The fall-through reached for a directory child after the recursive
call (missing continue in the source): suffix test, already-processed
test, then rebuild_cbz on a directory, which raises. -/
def stepAfterDir (n : String) (force : Bool) (s : RunSt) : RunSt :=
  if validSuffixLower n then
    if (s.out n).isSome && !force then s
    else { s with events := s.events ++ [Event.rebuildDir n], aborted := true }
  else s

mutual

/-- process_path of main.py over the input subtree t.  A non-directory
argument makes iterdir raise (only reachable for a non-directory
top-level input path). -/
def process_path (t : Node Archive) (force recurse : Bool) (s : RunSt) :
    RunSt :=
  match t with
  | .dir cs => processChildren cs force recurse s
  | _ => { s with aborted := true }

/-- The for-loop of process_path over the children of the input
directory.  When an exception is propagating, no further iteration
executes. -/
def processChildren (cs : Children Archive) (force recurse : Bool)
    (s : RunSt) : RunSt :=
  match cs with
  | .nil => s
  | .cons n t rest =>
      if s.aborted then s
      else
        processChildren rest force recurse
          (match t with
           | .file a => stepFile n a force s
           | .dir cs2 =>
               if recurse then
                 let s1 := process_path (Node.dir cs2) force recurse s
                 if s1.aborted then s1 else stepAfterDir n force s1
               else s
           | .other => s)

end

/-!
Top level (main.py lines 39-53 and 207-209).

parse_args calls validate_input_path(input_path, recurse) on line 51 and
discards the returned boolean; validate_output_path is never called
anywhere in the program.  The __main__ block then unconditionally calls
process_path on the parsed arguments.
-/

/-- The call on line 51 of main.py whose boolean result parse_args
discards. -/
def parseArgsValidation (t : Node Archive) (recurse : Bool) : Unit :=
  let _ := validate_input_path t recurse
  ()

/-- The top-level run: parse_args (including the discarded input
validation) followed by process_path. -/
def mainRun (t : Node Archive) (force recurse : Bool) (s : RunSt) : RunSt :=
  let _ := parseArgsValidation t recurse
  process_path t force recurse s

/-!
Association-list lemmas for the python dict model.
-/

/-- Every binding of the mapping carries the value determined by its key. -/
def coherentMap (m : List (FsPath × FsPath)) : Prop :=
  ∀ e ∈ m, e.2 = zipJoin e.1

theorem hasKey_iff {m : List (FsPath × FsPath)} {k : FsPath} :
    hasKey m k = true ↔ ∃ e ∈ m, e.1 = k := by
  simp [hasKey]

theorem self_mem_dictInsert (m : List (FsPath × FsPath))
    (kv : FsPath × FsPath) : kv ∈ dictInsert m kv := by
  unfold dictInsert
  by_cases h : hasKey m kv.1 = true
  · rw [if_pos h]
    rcases hasKey_iff.mp h with ⟨e, hem, hek⟩
    exact List.mem_map.mpr ⟨e, hem, by simp [hek]⟩
  · rw [if_neg h]
    simp

theorem mem_dictInsert_of_mem {m : List (FsPath × FsPath)}
    {kv e : FsPath × FsPath} (he : e ∈ m) (hce : e.2 = zipJoin e.1)
    (hckv : kv.2 = zipJoin kv.1) : e ∈ dictInsert m kv := by
  unfold dictInsert
  by_cases h : hasKey m kv.1 = true
  · rw [if_pos h]
    refine List.mem_map.mpr ⟨e, he, ?_⟩
    by_cases hek : e.1 = kv.1
    · rw [if_pos hek]
      obtain ⟨e1, e2⟩ := e
      obtain ⟨k1, k2⟩ := kv
      simp only at hek hce hckv
      simp [hek, hce, hckv]
    · rw [if_neg hek]
  · rw [if_neg h]
    exact List.mem_append_left _ he

theorem coherent_dictInsert {m : List (FsPath × FsPath)}
    {kv : FsPath × FsPath} (hm : coherentMap m) (hckv : kv.2 = zipJoin kv.1) :
    coherentMap (dictInsert m kv) := by
  intro e he
  unfold dictInsert at he
  by_cases h : hasKey m kv.1 = true
  · rw [if_pos h] at he
    rcases List.mem_map.mp he with ⟨x, hx, hxe⟩
    by_cases hxk : x.1 = kv.1
    · rw [if_pos hxk] at hxe
      subst hxe
      exact hckv
    · rw [if_neg hxk] at hxe
      subst hxe
      exact hm x hx
  · rw [if_neg h] at he
    rcases List.mem_append.mp he with he | he
    · exact hm e he
    · rcases List.mem_singleton.mp he with rfl
      exact hckv

theorem dictUpdate_nil (m : List (FsPath × FsPath)) : dictUpdate m [] = m := rfl

theorem dictUpdate_cons (m : List (FsPath × FsPath)) (kv : FsPath × FsPath)
    (rest : List (FsPath × FsPath)) :
    dictUpdate m (kv :: rest) = dictUpdate (dictInsert m kv) rest := rfl

theorem coherent_dictUpdate {m m2 : List (FsPath × FsPath)}
    (hm : coherentMap m) (hm2 : coherentMap m2) :
    coherentMap (dictUpdate m m2) := by
  induction m2 generalizing m with
  | nil => exact hm
  | cons kv rest ih =>
      rw [dictUpdate_cons]
      exact ih (coherent_dictInsert hm (hm2 kv (by simp)))
        (fun e he => hm2 e (by simp [he]))

theorem mem_dictUpdate_left {m m2 : List (FsPath × FsPath)}
    {e : FsPath × FsPath} (he : e ∈ m) (hce : e.2 = zipJoin e.1)
    (hm2 : coherentMap m2) : e ∈ dictUpdate m m2 := by
  induction m2 generalizing m with
  | nil => exact he
  | cons kv rest ih =>
      rw [dictUpdate_cons]
      exact ih (mem_dictInsert_of_mem he hce (hm2 kv (by simp)))
        (fun x hx => hm2 x (by simp [hx]))

theorem mem_dictUpdate_right {m m2 : List (FsPath × FsPath)}
    {e : FsPath × FsPath} (he : e ∈ m2) (hm2 : coherentMap m2) :
    e ∈ dictUpdate m m2 := by
  induction m2 generalizing m with
  | nil => cases he
  | cons kv rest ih =>
      rw [dictUpdate_cons]
      rcases List.mem_cons.mp he with rfl | h
      · exact mem_dictUpdate_left (self_mem_dictInsert m e)
          (hm2 e (by simp)) (fun x hx => hm2 x (by simp [hx]))
      · exact ih h (fun x hx => hm2 x (by simp [hx]))

/-!
Coherence of build_rename_mapping: every binding maps a key k to zipJoin k.
-/

mutual

theorem coherent_buildAux {α : Type} :
    ∀ (t : Node α) (rel : FsPath), coherentMap (buildAux t rel) := by
  intro t rel
  match t with
  | .file a => intro e he; simp [buildAux] at he
  | .other => intro e he; simp [buildAux] at he
  | .dir cs =>
      exact coherent_buildChildren cs rel [] (fun e he => by simp at he)

theorem coherent_buildChildren {α : Type} :
    ∀ (cs : Children α) (rel : FsPath) (m : List (FsPath × FsPath)),
      coherentMap m → coherentMap (buildChildren cs rel m) := by
  intro cs rel m hm
  match cs with
  | .nil => exact hm
  | .cons n t rest =>
      match t with
      | .dir cs2 =>
          exact coherent_buildChildren rest rel _
            (coherent_dictUpdate hm (coherent_buildAux (Node.dir cs2) (rel ++ [n])))
      | .file a =>
          exact coherent_buildChildren rest rel _ (coherent_dictInsert hm rfl)
      | .other => exact coherent_buildChildren rest rel m hm

end

/-- A coherent binding already in the accumulator dict survives the rest of
the loop of build_rename_mapping. -/
theorem mem_buildChildren_of_mem {α : Type} :
    ∀ (cs : Children α) (rel : FsPath) (m : List (FsPath × FsPath))
      (e : FsPath × FsPath), e ∈ m → e.2 = zipJoin e.1 →
      e ∈ buildChildren cs rel m := by
  intro cs rel m e he hce
  match cs with
  | .nil => exact he
  | .cons n t rest =>
      match t with
      | .dir cs2 =>
          exact mem_buildChildren_of_mem rest rel _ e
            (mem_dictUpdate_left he hce (coherent_buildAux (Node.dir cs2) (rel ++ [n]))) hce
      | .file a =>
          exact mem_buildChildren_of_mem rest rel _ e
            (mem_dictInsert_of_mem he hce rfl) hce
      | .other => exact mem_buildChildren_of_mem rest rel m e he hce

/-- Every regular file reachable below the directory is mapped: if the file
at relative path q below the directory with children cs exists, then the
mapping built at prefix rel binds rel ++ q to zipJoin (rel ++ q). -/
theorem mem_buildChildren_of_fileAt {α : Type} :
    ∀ (cs : Children α) (rel q : FsPath) (b : α) (m : List (FsPath × FsPath)),
      coherentMap m → fileAt (Node.dir cs) q = some b →
      (rel ++ q, zipJoin (rel ++ q)) ∈ buildChildren cs rel m := by
  intro cs rel q b m hm hq
  match q with
  | [] => simp [fileAt] at hq
  | n :: q2 =>
      match cs with
      | .nil => simp [fileAt, lookupChild] at hq
      | .cons n0 t0 rest =>
          by_cases hn : n0 = n
          · subst hn
            have hq2 : fileAt t0 q2 = some b := by
              simpa [fileAt, lookupChild] using hq
            match t0 with
            | .file a =>
                match q2 with
                | [] =>
                    exact mem_buildChildren_of_mem rest rel _ _
                      (self_mem_dictInsert m _) rfl
                | _ :: _ => simp [fileAt] at hq2
            | .dir cs2 =>
                have hsub := mem_buildChildren_of_fileAt cs2 (rel ++ [n0]) q2 b []
                  (fun e he => by simp at he) hq2
                have hmem : ((rel ++ [n0]) ++ q2, zipJoin ((rel ++ [n0]) ++ q2)) ∈
                    dictUpdate m (buildAux (Node.dir cs2) (rel ++ [n0])) :=
                  mem_dictUpdate_right hsub
                    (coherent_buildAux (Node.dir cs2) (rel ++ [n0]))
                have heq : (rel ++ [n0]) ++ q2 = rel ++ n0 :: q2 := by simp
                rw [heq] at hmem
                exact mem_buildChildren_of_mem rest rel _ _ hmem rfl
            | .other =>
                match q2 with
                | [] => simp [fileAt] at hq2
                | _ :: _ => simp [fileAt] at hq2
          · have hrest : fileAt (Node.dir rest) (n :: q2) = some b := by
              simpa [fileAt, lookupChild, hn] using hq
            match t0 with
            | .dir cs2 =>
                exact mem_buildChildren_of_fileAt rest rel (n :: q2) b _
                  (coherent_dictUpdate hm
                    (coherent_buildAux (Node.dir cs2) (rel ++ [n0]))) hrest
            | .file a =>
                exact mem_buildChildren_of_fileAt rest rel (n :: q2) b _
                  (coherent_dictInsert hm rfl) hrest
            | .other =>
                exact mem_buildChildren_of_fileAt rest rel (n :: q2) b m hm hrest

/-!
Claim C1.
-/

/-- Modelled from the words of the claim and spec section 4.2: the new path
takes the first segment of the zip path as the only directory component and
appends the flattened zip path as the filename; a file directly at the root
maps to itself unchanged. -/
def specNewPath (p : FsPath) : FsPath :=
  match p with
  | [] => []
  | [n] => [n]
  | n :: m :: rest => [n, String.intercalate "_" (n :: m :: rest)]

/-- Concrete extracted tree holding the single file
images/chapter1/page001.jpg, as in the spec examples. -/
def exTreeNested : Node Bytes :=
  .dir (.cons "images" (.dir (.cons "chapter1"
    (.dir (.cons "page001.jpg" (.file [7]) .nil)) .nil)) .nil)

/-- Concrete extracted tree holding the single root file cover.jpg. -/
def exTreeRoot : Node Bytes :=
  .dir (.cons "cover.jpg" (.file [9]) .nil)

/-- C1, counterexample: the code maps images/chapter1/page001.jpg to
images/chapter1/page001.jpg/images_chapter1_page001.jpg, not to the claimed
images/images_chapter1_page001.jpg, and maps the root file cover.jpg to
cover.jpg/cover.jpg, not to itself. -/
theorem claim_C1_counterexample :
    fileAt exTreeNested ["images", "chapter1", "page001.jpg"] = some [7]
    ∧ specNewPath ["images", "chapter1", "page001.jpg"]
        = ["images", "images_chapter1_page001.jpg"]
    ∧ build_rename_mapping exTreeNested
        = [(["images", "chapter1", "page001.jpg"],
            ["images", "chapter1", "page001.jpg", "images_chapter1_page001.jpg"])]
    ∧ (["images", "chapter1", "page001.jpg"],
        ["images", "images_chapter1_page001.jpg"]) ∉ build_rename_mapping exTreeNested
    ∧ build_rename_mapping exTreeRoot = [(["cover.jpg"], ["cover.jpg", "cover.jpg"])]
    ∧ (["cover.jpg"], ["cover.jpg"]) ∉ build_rename_mapping exTreeRoot := by
  decide

/-- C1 as amended: build_rename_mapping maps every regular file reachable
under the extraction root, keyed by its zip path, to the ENTIRE zip path
extended by one final component, the zip path flattened with underscores
(zipJoin); and every binding of the mapping has this shape. -/
theorem claim_C1_thm (t : Node Bytes) :
    (∀ p b, t.isDir = true → fileAt t p = some b →
        (p, zipJoin p) ∈ build_rename_mapping t)
    ∧ ∀ e ∈ build_rename_mapping t, e.2 = zipJoin e.1 := by
  constructor
  · intro p b hdir hp
    match t with
    | .dir cs =>
        have := mem_buildChildren_of_fileAt cs [] p b []
          (fun e he => by simp at he) hp
        simpa [build_rename_mapping, buildAux] using this
    | .file a => simp [Node.isDir] at hdir
    | .other => simp [Node.isDir] at hdir
  · exact coherent_buildAux t []

/-- Witness for C1: the amended mapping rule evaluated on the nested
example tree. -/
theorem claim_C1_witness :
    (["images", "chapter1", "page001.jpg"],
      ["images", "chapter1", "page001.jpg", "images_chapter1_page001.jpg"]) ∈
      build_rename_mapping exTreeNested :=
  (claim_C1_thm exTreeNested).1 ["images", "chapter1", "page001.jpg"] [7]
    rfl rfl

/-!
Claim C3: the mapping has exactly one entry per regular file.

fileRelPaths enumerates, in traversal order, the zip paths of the regular
files reachable under a node; we prove that for a well-formed tree the
mapping is exactly this enumeration paired with zipJoin, that the
enumeration has no duplicates, and that every enumerated path resolves to a
regular file.
-/

mutual

/-- The zip paths of the regular files reachable under a node whose path
relative to the extraction root is rel, in the traversal order of
build_rename_mapping. -/
def frpAux {α : Type} : Node α → FsPath → List FsPath
  | .dir cs, rel => frpChildren cs rel
  | _, _ => []

/-- The zip paths contributed by a directory listing. -/
def frpChildren {α : Type} : Children α → FsPath → List FsPath
  | .nil, _ => []
  | .cons n t rest, rel =>
      (match t with
       | .dir cs => frpAux (Node.dir cs) (rel ++ [n])
       | .file _ => [rel ++ [n]]
       | .other => []) ++ frpChildren rest rel

end

/-- The zip paths of the regular files reachable under the extraction
root. -/
def fileRelPaths {α : Type} (t : Node α) : List FsPath :=
  frpAux t []

theorem append_cons_ne {rel : FsPath} {n n2 : String} {q q2 : FsPath}
    (h : n ≠ n2) : rel ++ n :: q ≠ rel ++ n2 :: q2 := by
  intro he
  have h2 := List.append_cancel_left he
  simp only [List.cons.injEq] at h2
  exact h h2.1

theorem allDistinct_cons {x : String} {xs : List String} :
    allDistinct (x :: xs) = true ↔ x ∉ xs ∧ allDistinct xs = true := by
  simp [allDistinct]

theorem band_split {a b : Bool} (h : (a && b) = true) :
    a = true ∧ b = true := by
  simp only [Bool.and_eq_true] at h
  exact h

theorem fileAt_dir_nil {α : Type} (cs : Children α) :
    fileAt (Node.dir cs) [] = none := rfl

theorem fileAt_dir_cons {α : Type} (cs : Children α) (n : String) (q : FsPath) :
    fileAt (Node.dir cs) (n :: q)
      = (match lookupChild cs n with
         | some t => fileAt t q
         | none => none) := rfl

theorem lookupChild_cons {α : Type} (m : String) (t : Node α)
    (rest : Children α) (n : String) :
    lookupChild (Children.cons m t rest) n
      = if m = n then some t else lookupChild rest n := rfl

theorem lookupChild_mem_namesOf {α : Type} :
    ∀ (cs : Children α) (n : String) (t : Node α),
      lookupChild cs n = some t → n ∈ namesOf cs := by
  intro cs n t h
  match cs with
  | .nil => simp [lookupChild] at h
  | .cons m t0 rest =>
      by_cases hm : m = n
      · subst hm; simp [namesOf]
      · rw [lookupChild, if_neg hm] at h
        simp only [namesOf, List.mem_cons]
        exact Or.inr (lookupChild_mem_namesOf rest n t h)

/-- Resolving below a directory listing ignores a fresh leading child. -/
theorem fileAt_cons_of_rest {α : Type} {rest : Children α} {q : FsPath}
    {b : α} (n : String) (t : Node α) (hnm : n ∉ namesOf rest)
    (h : fileAt (Node.dir rest) q = some b) :
    fileAt (Node.dir (Children.cons n t rest)) q = some b := by
  match q with
  | [] => rw [fileAt_dir_nil] at h; cases h
  | n2 :: q2 =>
      rw [fileAt_dir_cons] at h
      rcases hlk : lookupChild rest n2 with _ | t2
      · rw [hlk] at h; cases h
      · have hn2 := lookupChild_mem_namesOf rest n2 t2 hlk
        have hn : n ≠ n2 := fun he => hnm (he ▸ hn2)
        rw [hlk] at h
        rw [fileAt_dir_cons, lookupChild_cons, if_neg hn, hlk]
        exact h


mutual

/-- Shape of enumerated zip paths: each extends rel by a nonempty suffix. -/
theorem frpAux_shape {α : Type} :
    ∀ (t : Node α) (rel p : FsPath), p ∈ frpAux t rel →
      ∃ q, q ≠ [] ∧ p = rel ++ q := by
  intro t rel p hp
  match t with
  | .file a => simp [frpAux] at hp
  | .other => simp [frpAux] at hp
  | .dir cs =>
      rcases frpChildren_shape cs rel p hp with ⟨n, q, _, hpe⟩
      exact ⟨n :: q, by simp, hpe⟩

/-- Shape of zip paths contributed by a listing: each extends rel by a
child name of the listing followed by some suffix. -/
theorem frpChildren_shape {α : Type} :
    ∀ (cs : Children α) (rel p : FsPath), p ∈ frpChildren cs rel →
      ∃ n q, n ∈ namesOf cs ∧ p = rel ++ n :: q := by
  intro cs rel p hp
  match cs with
  | .nil => simp [frpChildren] at hp
  | .cons n (.dir cs2) rest =>
      have hp2 : p ∈ frpAux (Node.dir cs2) (rel ++ [n]) ++ frpChildren rest rel := hp
      rcases List.mem_append.mp hp2 with hl | hr
      · rcases frpAux_shape (Node.dir cs2) (rel ++ [n]) p hl with ⟨q, hq, hpe⟩
        match q with
        | [] => exact absurd rfl hq
        | q0 :: qrest =>
            refine ⟨n, q0 :: qrest, by simp [namesOf], ?_⟩
            simpa using hpe
      · rcases frpChildren_shape rest rel p hr with ⟨n2, q, hn2, hpe⟩
        exact ⟨n2, q, by simp [namesOf, hn2], hpe⟩
  | .cons n (.file a) rest =>
      have hp2 : p ∈ [rel ++ [n]] ++ frpChildren rest rel := hp
      rcases List.mem_append.mp hp2 with hl | hr
      · rcases List.mem_singleton.mp hl with rfl
        exact ⟨n, [], by simp [namesOf], by simp⟩
      · rcases frpChildren_shape rest rel p hr with ⟨n2, q, hn2, hpe⟩
        exact ⟨n2, q, by simp [namesOf, hn2], hpe⟩
  | .cons n .other rest =>
      have hp2 : p ∈ frpChildren rest rel := hp
      rcases frpChildren_shape rest rel p hp2 with ⟨n2, q, hn2, hpe⟩
      exact ⟨n2, q, by simp [namesOf, hn2], hpe⟩

end

mutual

/-- For a well-formed tree the enumeration of zip paths has no
duplicates. -/
theorem frpAux_nodup {α : Type} :
    ∀ (t : Node α) (rel : FsPath), t.wf = true → (frpAux t rel).Nodup := by
  intro t rel h
  match t with
  | .file a => simp [frpAux]
  | .other => simp [frpAux]
  | .dir cs =>
      have h2 := band_split
        (show (allDistinct (namesOf cs) && Children.wfAll cs) = true from h)
      exact frpChildren_nodup cs rel h2.1 h2.2

/-- For a listing with distinct names and well-formed members the
contributed zip paths have no duplicates. -/
theorem frpChildren_nodup {α : Type} :
    ∀ (cs : Children α) (rel : FsPath), allDistinct (namesOf cs) = true →
      Children.wfAll cs = true → (frpChildren cs rel).Nodup := by
  intro cs rel hd hw
  match cs with
  | .nil => simp [frpChildren]
  | .cons n (.dir cs2) rest =>
      have hd2 : n ∉ namesOf rest ∧ allDistinct (namesOf rest) = true :=
        allDistinct_cons.mp hd
      have hw2 : (Node.dir cs2).wf = true ∧ Children.wfAll rest = true :=
        band_split hw
      show (frpAux (Node.dir cs2) (rel ++ [n]) ++ frpChildren rest rel).Nodup
      refine List.Nodup.append (frpAux_nodup (Node.dir cs2) (rel ++ [n]) hw2.1)
        (frpChildren_nodup rest rel hd2.2 hw2.2) ?_
      intro p hpb hpr
      rcases frpChildren_shape rest rel p hpr with ⟨n2, q2, hn2, hpe2⟩
      have hn : n ≠ n2 := fun he => hd2.1 (he ▸ hn2)
      rcases frpAux_shape (Node.dir cs2) (rel ++ [n]) p hpb with ⟨q, hq, hpe⟩
      match q with
      | [] => exact absurd rfl hq
      | q0 :: qrest =>
          rw [hpe2] at hpe
          have he2 : rel ++ n2 :: q2 = rel ++ n :: (q0 :: qrest) := by
            simpa using hpe
          exact append_cons_ne hn he2.symm
  | .cons n (.file a) rest =>
      have hd2 : n ∉ namesOf rest ∧ allDistinct (namesOf rest) = true :=
        allDistinct_cons.mp hd
      have hw2 : Children.wfAll rest = true := (band_split hw).2
      show ([rel ++ [n]] ++ frpChildren rest rel).Nodup
      refine List.Nodup.append (by simp)
        (frpChildren_nodup rest rel hd2.2 hw2) ?_
      intro p hpb hpr
      rcases frpChildren_shape rest rel p hpr with ⟨n2, q2, hn2, hpe2⟩
      have hn : n ≠ n2 := fun he => hd2.1 (he ▸ hn2)
      rcases List.mem_singleton.mp hpb with rfl
      exact append_cons_ne hn hpe2
  | .cons n .other rest =>
      have hd2 : allDistinct (namesOf rest) = true := (allDistinct_cons.mp hd).2
      have hw2 : Children.wfAll rest = true := (band_split hw).2
      show (frpChildren rest rel).Nodup
      exact frpChildren_nodup rest rel hd2 hw2

end

mutual

/-- For a well-formed tree every enumerated zip path resolves to a regular
file. -/
theorem frpAux_fileAt {α : Type} :
    ∀ (t : Node α) (rel p : FsPath), t.wf = true → p ∈ frpAux t rel →
      ∃ q b, p = rel ++ q ∧ fileAt t q = some b := by
  intro t rel p h hp
  match t with
  | .file a => simp [frpAux] at hp
  | .other => simp [frpAux] at hp
  | .dir cs =>
      have h2 := band_split
        (show (allDistinct (namesOf cs) && Children.wfAll cs) = true from h)
      exact frpChildren_fileAt cs rel p h2.1 h2.2 hp

/-- Listing version of frpAux_fileAt. -/
theorem frpChildren_fileAt {α : Type} :
    ∀ (cs : Children α) (rel p : FsPath), allDistinct (namesOf cs) = true →
      Children.wfAll cs = true → p ∈ frpChildren cs rel →
      ∃ q b, p = rel ++ q ∧ fileAt (Node.dir cs) q = some b := by
  intro cs rel p hd hw hp
  match cs with
  | .nil => simp [frpChildren] at hp
  | .cons n (.file a) rest =>
      have hd2 := allDistinct_cons.mp hd
      have hw2 := (band_split hw).2
      have hp2 : p ∈ [rel ++ [n]] ++ frpChildren rest rel := hp
      rcases List.mem_append.mp hp2 with hl | hr
      · rcases List.mem_singleton.mp hl with rfl
        refine ⟨[n], a, rfl, ?_⟩
        rw [fileAt_dir_cons, lookupChild_cons, if_pos rfl]
        rfl
      · rcases frpChildren_fileAt rest rel p hd2.2 hw2 hr with ⟨q, b, hpe, hfa⟩
        exact ⟨q, b, hpe, fileAt_cons_of_rest n (Node.file a) hd2.1 hfa⟩
  | .cons n (.dir cs2) rest =>
      have hd2 := allDistinct_cons.mp hd
      have hw2 := band_split hw
      have hp2 : p ∈ frpAux (Node.dir cs2) (rel ++ [n]) ++ frpChildren rest rel := hp
      rcases List.mem_append.mp hp2 with hl | hr
      · rcases frpAux_fileAt (Node.dir cs2) (rel ++ [n]) p hw2.1 hl with
          ⟨q, b, hpe, hfa⟩
        refine ⟨n :: q, b, by simpa using hpe, ?_⟩
        rw [fileAt_dir_cons, lookupChild_cons, if_pos rfl]
        exact hfa
      · rcases frpChildren_fileAt rest rel p hd2.2 hw2.2 hr with ⟨q, b, hpe, hfa⟩
        exact ⟨q, b, hpe, fileAt_cons_of_rest n (Node.dir cs2) hd2.1 hfa⟩
  | .cons n .other rest =>
      have hd2 := allDistinct_cons.mp hd
      have hw2 := (band_split hw).2
      have hp2 : p ∈ frpChildren rest rel := hp
      rcases frpChildren_fileAt rest rel p hd2.2 hw2 hp2 with ⟨q, b, hpe, hfa⟩
      exact ⟨q, b, hpe, fileAt_cons_of_rest n Node.other hd2.1 hfa⟩

end

theorem hasKey_eq_false {m : List (FsPath × FsPath)} {k : FsPath}
    (h : ∀ e ∈ m, e.1 ≠ k) : hasKey m k = false := by
  simp only [hasKey, List.any_eq_false, decide_eq_true_eq]
  exact h

theorem dictInsert_fresh {m : List (FsPath × FsPath)} {kv : FsPath × FsPath}
    (h : ∀ e ∈ m, e.1 ≠ kv.1) : dictInsert m kv = m ++ [kv] := by
  rw [dictInsert, hasKey_eq_false h]
  rfl

theorem dictUpdate_fresh {m m2 : List (FsPath × FsPath)}
    (hnd : (m2.map Prod.fst).Nodup)
    (h : ∀ e ∈ m, ∀ e2 ∈ m2, e.1 ≠ e2.1) : dictUpdate m m2 = m ++ m2 := by
  induction m2 generalizing m with
  | nil => simp [dictUpdate]
  | cons kv rest ih =>
      rw [dictUpdate_cons]
      rw [dictInsert_fresh (fun e he => h e he kv (by simp))]
      rw [List.map_cons, List.nodup_cons] at hnd
      rw [ih hnd.2]
      · simp
      · intro e he e2 he2
        rcases List.mem_append.mp he with he | he
        · exact h e he e2 (by simp [he2])
        · rcases List.mem_singleton.mp he with rfl
          intro hke
          exact hnd.1 (hke ▸ List.mem_map_of_mem Prod.fst he2)

/-- The pairing function from zip path to mapping binding. -/
def toBinding (p : FsPath) : FsPath × FsPath := (p, zipJoin p)

theorem map_fst_toBinding (l : List FsPath) :
    List.map (Prod.fst ∘ toBinding) l = l := by
  induction l with
  | nil => rfl
  | cons p rest ih =>
      simp only [List.map_cons, ih, Function.comp_apply]
      rfl

mutual

/-- For a well-formed tree, build_rename_mapping is exactly the enumeration
of the zip paths of the regular files, each paired with its zipJoin image,
in traversal order. -/
theorem buildAux_eq_frp {α : Type} :
    ∀ (t : Node α) (rel : FsPath), t.wf = true →
      buildAux t rel = (frpAux t rel).map toBinding := by
  intro t rel h
  match t with
  | .file a => rfl
  | .other => rfl
  | .dir cs =>
      have h2 := band_split
        (show (allDistinct (namesOf cs) && Children.wfAll cs) = true from h)
      have he := buildChildren_eq_frp cs rel [] h2.1 h2.2 (fun e he => by simp at he)
      simpa using he

/-- Loop version of buildAux_eq_frp, for an accumulator dict whose keys do
not occur among the zip paths still to be produced. -/
theorem buildChildren_eq_frp {α : Type} :
    ∀ (cs : Children α) (rel : FsPath) (m : List (FsPath × FsPath)),
      allDistinct (namesOf cs) = true → Children.wfAll cs = true →
      (∀ e ∈ m, ∀ p ∈ frpChildren cs rel, e.1 ≠ p) →
      buildChildren cs rel m = m ++ (frpChildren cs rel).map toBinding := by
  intro cs rel m hd hw hm
  match cs with
  | .nil => simp [frpChildren, buildChildren]
  | .cons n (.file a) rest =>
      have hd2 := allDistinct_cons.mp hd
      have hw2 := (band_split hw).2
      have hfresh : ∀ e ∈ m, e.1 ≠ rel ++ [n] := by
        intro e he
        exact hm e he (rel ++ [n]) (List.mem_append_left _ (by simp))
      show buildChildren rest rel (dictInsert m (rel ++ [n], zipJoin (rel ++ [n])))
        = m ++ (([rel ++ [n]] ++ frpChildren rest rel).map toBinding)
      rw [dictInsert_fresh hfresh]
      rw [buildChildren_eq_frp rest rel _ hd2.2 hw2 ?fresh]
      · simp [toBinding]
      case fresh =>
        intro e he p hp
        rcases frpChildren_shape rest rel p hp with ⟨n2, q2, hn2, rfl⟩
        rcases List.mem_append.mp he with he | he
        · exact hm e he _ (List.mem_append_right _ hp)
        · rcases List.mem_singleton.mp he with rfl
          have hn : n ≠ n2 := fun hne => hd2.1 (hne ▸ hn2)
          exact append_cons_ne hn
  | .cons n (.dir cs2) rest =>
      have hd2 := allDistinct_cons.mp hd
      have hw2 := band_split hw
      have hsub := buildAux_eq_frp (Node.dir cs2) (rel ++ [n]) hw2.1
      have hkeys : (((frpAux (Node.dir cs2) (rel ++ [n])).map toBinding).map
          Prod.fst).Nodup := by
        have he2 : ((frpAux (Node.dir cs2) (rel ++ [n])).map toBinding).map Prod.fst
            = frpAux (Node.dir cs2) (rel ++ [n]) := by
          rw [List.map_map, map_fst_toBinding]
        rw [he2]
        exact frpAux_nodup (Node.dir cs2) (rel ++ [n]) hw2.1
      have hfresh : ∀ e ∈ m, ∀ e2 ∈ (frpAux (Node.dir cs2) (rel ++ [n])).map
          toBinding, e.1 ≠ e2.1 := by
        intro e he e2 he2
        rcases List.mem_map.mp he2 with ⟨p, hp, rfl⟩
        exact hm e he p (List.mem_append_left _ hp)
      show buildChildren rest rel
          (dictUpdate m (buildAux (Node.dir cs2) (rel ++ [n])))
        = m ++ ((frpAux (Node.dir cs2) (rel ++ [n]) ++ frpChildren rest rel).map
            toBinding)
      rw [hsub, dictUpdate_fresh hkeys hfresh]
      rw [buildChildren_eq_frp rest rel _ hd2.2 hw2.2 ?fresh]
      · simp
      case fresh =>
        intro e he p hp
        rcases frpChildren_shape rest rel p hp with ⟨n2, q2, hn2, rfl⟩
        have hn : n ≠ n2 := fun hne => hd2.1 (hne ▸ hn2)
        rcases List.mem_append.mp he with he | he
        · exact hm e he _ (List.mem_append_right _ hp)
        · rcases List.mem_map.mp he with ⟨p2, hp2, rfl⟩
          rcases frpAux_shape (Node.dir cs2) (rel ++ [n]) p2 hp2 with ⟨q, hq, rfl⟩
          match q, hq with
          | q0 :: qrest, _ =>
              show (rel ++ [n]) ++ q0 :: qrest ≠ rel ++ n2 :: q2
              rw [List.append_assoc]
              exact append_cons_ne hn
  | .cons n .other rest =>
      have hd2 := allDistinct_cons.mp hd
      have hw2 := (band_split hw).2
      show buildChildren rest rel m
        = m ++ (frpChildren rest rel).map toBinding
      refine buildChildren_eq_frp rest rel m hd2.2 hw2 ?_
      intro e he p hp
      exact hm e he p (List.mem_append_right _ hp)

end

/-!
Claim C3.
-/

/-- Concrete well-formed extracted tree with three regular files, one
empty directory, and one entry of another kind. -/
def exTreeC3 : Node Bytes :=
  .dir (.cons "a"
    (.dir (.cons "x.jpg" (.file [1]) (.cons "y.jpg" (.file [2])
      (.cons "sub" (.dir .nil) .nil))))
    (.cons "z.jpg" (.file [3]) (.cons "weird" .other .nil)))

/-- C3, confirmed: for a well-formed extraction root, the keys of
build_rename_mapping are exactly the zip paths of the regular files
reachable under the root, in traversal order; the keys are pairwise
distinct; and every key resolves to a regular file (in particular no
directory occurs among the keys). -/
theorem claim_C3_thm (t : Node Bytes) (h : t.wf = true) :
    (build_rename_mapping t).map Prod.fst = fileRelPaths t
    ∧ (fileRelPaths t).Nodup
    ∧ ∀ p ∈ fileRelPaths t, ∃ b, fileAt t p = some b := by
  refine ⟨?_, frpAux_nodup t [] h, ?_⟩
  · rw [build_rename_mapping, buildAux_eq_frp t [] h]
    rw [List.map_map, map_fst_toBinding]
    rfl
  · intro p hp
    rcases frpAux_fileAt t [] p h hp with ⟨q, b, hpe, hfa⟩
    simp only [List.nil_append] at hpe
    exact ⟨b, hpe ▸ hfa⟩

/-- Witness for C3 on the concrete tree exTreeC3. -/
theorem claim_C3_witness :
    (build_rename_mapping exTreeC3).map Prod.fst = fileRelPaths exTreeC3
    ∧ (fileRelPaths exTreeC3).Nodup
    ∧ ∃ b, fileAt exTreeC3 ["a", "x.jpg"] = some b :=
  ⟨(claim_C3_thm exTreeC3 (by decide)).1,
   (claim_C3_thm exTreeC3 (by decide)).2.1,
   (claim_C3_thm exTreeC3 (by decide)).2.2 ["a", "x.jpg"] (by decide)⟩

/-!
Claim C4: validate_input_path.
-/

/-- The final segment of a path. -/
def lastSeg : FsPath → String
  | [] => ""
  | [n] => n
  | _ :: m :: rest => lastSeg (m :: rest)

theorem lastSeg_cons_ne_nil {q : FsPath} (n : String) (h : q ≠ []) :
    lastSeg (n :: q) = lastSeg q := by
  match q with
  | [] => exact absurd rfl h
  | m :: rest => rfl

theorem entryAt_nil {α : Type} (t : Node α) : entryAt t [] = some t := by
  match t with
  | .file a => rfl
  | .dir cs => rfl
  | .other => rfl

theorem entryAt_dir_cons {α : Type} (cs : Children α) (n : String) (q : FsPath) :
    entryAt (Node.dir cs) (n :: q)
      = (match lookupChild cs n with
         | some t => entryAt t q
         | none => none) := rfl

/-- Resolving below a directory listing ignores a fresh leading child. -/
theorem entryAt_cons_of_rest {α : Type} {rest : Children α} {q : FsPath}
    {e : Node α} (n : String) (t : Node α) (hnm : n ∉ namesOf rest)
    (hq : q ≠ []) (h : entryAt (Node.dir rest) q = some e) :
    entryAt (Node.dir (Children.cons n t rest)) q = some e := by
  match q with
  | [] => exact absurd rfl hq
  | n2 :: q2 =>
      rw [entryAt_dir_cons] at h
      rcases hlk : lookupChild rest n2 with _ | t2
      · rw [hlk] at h; cases h
      · have hn2 := lookupChild_mem_namesOf rest n2 t2 hlk
        have hn : n ≠ n2 := fun he => hnm (he ▸ hn2)
        rw [hlk] at h
        rw [entryAt_dir_cons, lookupChild_cons, if_neg hn, hlk]
        exact h

/-- The characterization of what validate_input_path actually accepts:
some nonempty path resolves from the root to an entry whose final segment
has an exact-case suffix in VALID_SUFFIXES, where the entry is a non-directory
at arbitrary depth when recurse is set, and a direct child of ANY kind
(including a subdirectory) when recurse is not set. -/
def SpecEligible {α : Type} (t : Node α) (r : Bool) : Prop :=
  ∃ p e, entryAt t p = some e ∧ p ≠ [] ∧ validSuffixExact (lastSeg p) = true ∧
    cond r (e.isDir = false) (p.length = 1)

mutual

/-- Modelled from the words of the claim: the input tree contains, directly
or (when recurse) within any subdirectory, at least one regular file whose
extension is .cbz or .zip compared case-insensitively. -/
def claimC4Spec {α : Type} : Node α → Bool → Bool
  | .dir cs, recurse => claimC4SpecChildren cs recurse
  | _, _ => false

/-- Listing version of claimC4Spec. -/
def claimC4SpecChildren {α : Type} : Children α → Bool → Bool
  | .nil, _ => false
  | .cons n t rest, recurse =>
      (match t with
       | .file _ => validSuffixLower n
       | .dir cs => recurse && claimC4Spec (Node.dir cs) recurse
       | .other => false)
      || claimC4SpecChildren rest recurse

end

/-- C4, counterexample: a directory containing exactly one regular file
named a.CBZ contains a file whose extension is .cbz case-insensitively
(the claim says validate_input_path returns true), yet validate_input_path
returns false, because line 84 of main.py compares the exact suffix
without lowercasing. -/
theorem claim_C4_counterexample :
    validate_input_path
        (Node.dir (.cons "a.CBZ" (.file ([] : Archive)) .nil)) false = false
    ∧ claimC4Spec
        (Node.dir (.cons "a.CBZ" (.file ([] : Archive)) .nil)) false = true := by
  decide

mutual

/-- Soundness half of the C4 characterization. -/
theorem validate_sound {α : Type} :
    ∀ (t : Node α) (r : Bool), t.wf = true →
      validate_input_path t r = true → SpecEligible t r := by
  intro t r hw hv
  match t with
  | .file a => cases hv
  | .other => cases hv
  | .dir cs =>
      have h2 := band_split
        (show (allDistinct (namesOf cs) && Children.wfAll cs) = true from hw)
      exact anyValidChild_sound cs r h2.1 h2.2 hv

/-- Listing version of validate_sound. -/
theorem anyValidChild_sound {α : Type} :
    ∀ (cs : Children α) (r : Bool), allDistinct (namesOf cs) = true →
      Children.wfAll cs = true → anyValidChild cs r = true →
      SpecEligible (Node.dir cs) r := by
  intro cs r hd hw hv
  match cs with
  | .nil => cases hv
  | .cons n (.file a) rest =>
      have hd2 := allDistinct_cons.mp hd
      have hw2 := (band_split hw).2
      have hv2 : (validSuffixExact n || anyValidChild rest r) = true := hv
      rcases (Bool.or_eq_true _ _).mp hv2 with hl | hr
      · refine ⟨[n], Node.file a, ?_, by simp, hl, ?_⟩
        · rw [entryAt_dir_cons, lookupChild_cons, if_pos rfl]
          exact entryAt_nil _
        · cases r
          · rfl
          · rfl
      · rcases anyValidChild_sound rest r hd2.2 hw2 hr with ⟨p, e, hent, hne, hsuf, hc⟩
        exact ⟨p, e, entryAt_cons_of_rest n (Node.file a) hd2.1 hne hent,
          hne, hsuf, hc⟩
  | .cons n .other rest =>
      have hd2 := allDistinct_cons.mp hd
      have hw2 := (band_split hw).2
      have hv2 : (validSuffixExact n || anyValidChild rest r) = true := hv
      rcases (Bool.or_eq_true _ _).mp hv2 with hl | hr
      · refine ⟨[n], Node.other, ?_, by simp, hl, ?_⟩
        · rw [entryAt_dir_cons, lookupChild_cons, if_pos rfl]
          exact entryAt_nil _
        · cases r
          · rfl
          · rfl
      · rcases anyValidChild_sound rest r hd2.2 hw2 hr with ⟨p, e, hent, hne, hsuf, hc⟩
        exact ⟨p, e, entryAt_cons_of_rest n Node.other hd2.1 hne hent,
          hne, hsuf, hc⟩
  | .cons n (.dir cs2) rest =>
      have hd2 := allDistinct_cons.mp hd
      have hw2 := band_split hw
      have hv2 : ((if r then validate_input_path (Node.dir cs2) r
          else validSuffixExact n) || anyValidChild rest r) = true := hv
      rcases (Bool.or_eq_true _ _).mp hv2 with hl | hr
      · cases r
        · rw [if_neg (by simp)] at hl
          refine ⟨[n], Node.dir cs2, ?_, by simp, hl, rfl⟩
          rw [entryAt_dir_cons, lookupChild_cons, if_pos rfl]
          exact entryAt_nil _
        · rw [if_pos rfl] at hl
          rcases validate_sound (Node.dir cs2) true hw2.1 hl with
            ⟨p, e, hent, hne, hsuf, hc⟩
          refine ⟨n :: p, e, ?_, by simp, ?_, hc⟩
          · rw [entryAt_dir_cons, lookupChild_cons, if_pos rfl]
            exact hent
          · rw [lastSeg_cons_ne_nil n hne]
            exact hsuf
      · rcases anyValidChild_sound rest r hd2.2 hw2.2 hr with ⟨p, e, hent, hne, hsuf, hc⟩
        exact ⟨p, e, entryAt_cons_of_rest n (Node.dir cs2) hd2.1 hne hent,
          hne, hsuf, hc⟩

end

mutual

/-- Completeness half of the C4 characterization. -/
theorem validate_complete {α : Type} :
    ∀ (t : Node α) (r : Bool), t.wf = true →
      SpecEligible t r → validate_input_path t r = true := by
  intro t r hw hs
  rcases hs with ⟨p, e, hent, hne, hsuf, hc⟩
  match t, p with
  | t, [] => exact absurd rfl hne
  | .file a, n :: q => cases hent
  | .other, n :: q => cases hent
  | .dir cs, n :: q =>
      have h2 := band_split
        (show (allDistinct (namesOf cs) && Children.wfAll cs) = true from hw)
      exact anyValidChild_complete cs r n q e h2.1 h2.2 hent hsuf hc

/-- Listing version of validate_complete. -/
theorem anyValidChild_complete {α : Type} :
    ∀ (cs : Children α) (r : Bool) (n : String) (q : FsPath) (e : Node α),
      allDistinct (namesOf cs) = true → Children.wfAll cs = true →
      entryAt (Node.dir cs) (n :: q) = some e →
      validSuffixExact (lastSeg (n :: q)) = true →
      cond r (e.isDir = false) ((n :: q).length = 1) →
      anyValidChild cs r = true := by
  intro cs r n q e hd hw hent hsuf hc
  match cs with
  | .nil =>
      rw [entryAt_dir_cons] at hent
      cases hent
  | .cons m t rest =>
      have hd2 := allDistinct_cons.mp hd
      have hw2 := band_split hw
      by_cases hm : m = n
      · subst hm
        rw [entryAt_dir_cons, lookupChild_cons, if_pos rfl] at hent
        match q with
        | [] =>
            have hent2 : some t = some e := (entryAt_nil t) ▸ hent
            have het : t = e := Option.some.inj hent2
            subst het
            have hsuf2 : validSuffixExact m = true := hsuf
            match t with
            | .file a =>
                show (validSuffixExact m || anyValidChild rest r) = true
                rw [hsuf2]
                rfl
            | .other =>
                show (validSuffixExact m || anyValidChild rest r) = true
                rw [hsuf2]
                rfl
            | .dir cs2 =>
                cases r
                · show ((if false then validate_input_path (Node.dir cs2) false
                      else validSuffixExact m) || anyValidChild rest false) = true
                  rw [if_neg (by simp), hsuf2]
                  rfl
                · exact absurd hc (by simp [Node.isDir])
        | q0 :: q2 =>
            match t with
            | .file a =>
                cases (show (none : Option (Node α)) = some e from hent)
            | .other =>
                cases (show (none : Option (Node α)) = some e from hent)
            | .dir cs2 =>
                cases r
                · exact absurd hc (by simp)
                · have hv := validate_complete (Node.dir cs2) true hw2.1
                    ⟨q0 :: q2, e, hent, by simp,
                      by rw [lastSeg_cons_ne_nil m (by simp)] at hsuf; exact hsuf,
                      hc⟩
                  show ((if true then validate_input_path (Node.dir cs2) true
                      else validSuffixExact m) || anyValidChild rest true) = true
                  rw [if_pos rfl, hv]
                  rfl
      · have hent2 : entryAt (Node.dir rest) (n :: q) = some e := by
          rw [entryAt_dir_cons, lookupChild_cons, if_neg hm] at hent
          rw [entryAt_dir_cons]
          exact hent
        have hr := anyValidChild_complete rest r n q e hd2.2 hw2.2 hent2 hsuf hc
        match t with
        | .file a =>
            show (validSuffixExact m || anyValidChild rest r) = true
            rw [hr, Bool.or_true]
        | .other =>
            show (validSuffixExact m || anyValidChild rest r) = true
            rw [hr, Bool.or_true]
        | .dir cs2 =>
            show ((if r then validate_input_path (Node.dir cs2) r
                else validSuffixExact m) || anyValidChild rest r) = true
            rw [hr, Bool.or_true]

end

/-- C4 as amended: for a well-formed input tree, validate_input_path
returns true iff some nonempty path from the root resolves to an entry
whose final segment has exact-case suffix .cbz or .zip, that entry being a
non-directory at arbitrary depth when recurse is set, or a direct child of
any kind — including a subdirectory whose NAME merely carries such a
suffix — when recurse is not set.  In particular the comparison is
case-sensitive, unlike the claim. -/
theorem claim_C4_thm (t : Node Archive) (r : Bool) (h : t.wf = true) :
    validate_input_path t r = true ↔ SpecEligible t r :=
  ⟨validate_sound t r h, validate_complete t r h⟩

/-- Concrete input tree for the C4 witness: one archive file inside a
subdirectory. -/
def exTreeC4 : Node Archive :=
  .dir (.cons "sub" (.dir (.cons "x.cbz" (.file []) .nil)) .nil)

/-- Witness for C4: on exTreeC4 with recurse set, validate_input_path
accepts, hence the characterization produces an eligible entry. -/
theorem claim_C4_witness : SpecEligible exTreeC4 true :=
  (claim_C4_thm exTreeC4 true (by decide)).mp (by decide)

/-!
Claim C2: round trip through rebuild_cbz.

Lemmas about insertEntry and extractall: writing an entry makes its file
readable at its path; writing an entry leaves incomparable paths
untouched; extracting a well-formed archive makes every entry readable.
-/

theorem lookup_setChild_same {α : Type} :
    ∀ (cs : Children α) (n : String) (v : Node α),
      lookupChild (setChild cs n v) n = some v := by
  intro cs n v
  match cs with
  | .nil =>
      show lookupChild (Children.cons n v Children.nil) n = some v
      rw [lookupChild_cons, if_pos rfl]
  | .cons m t rest =>
      by_cases hm : m = n
      · rw [setChild, if_pos hm, lookupChild_cons, if_pos rfl]
      · rw [setChild, if_neg hm, lookupChild_cons, if_neg hm]
        exact lookup_setChild_same rest n v

theorem lookup_setChild_other {α : Type} :
    ∀ (cs : Children α) (n : String) (v : Node α) (n2 : String), n ≠ n2 →
      lookupChild (setChild cs n v) n2 = lookupChild cs n2 := by
  intro cs n v n2 hne
  match cs with
  | .nil =>
      show lookupChild (Children.cons n v Children.nil) n2 = lookupChild .nil n2
      rw [lookupChild_cons, if_neg hne]
  | .cons m t rest =>
      by_cases hm : m = n
      · subst hm
        rw [setChild, if_pos rfl, lookupChild_cons, if_neg hne,
          lookupChild_cons, if_neg hne]
      · rw [setChild, if_neg hm, lookupChild_cons, lookupChild_cons]
        by_cases hm2 : m = n2
        · rw [if_pos hm2, if_pos hm2]
        · rw [if_neg hm2, if_neg hm2]
          exact lookup_setChild_other rest n v n2 hne

theorem asDir_shape (o : Option (Node Bytes)) :
    ∃ cs : Children Bytes, asDir o = Node.dir cs := by
  match o with
  | none => exact ⟨.nil, rfl⟩
  | some (.dir cs) => exact ⟨cs, rfl⟩
  | some (.file c) => exact ⟨.nil, rfl⟩
  | some .other => exact ⟨.nil, rfl⟩

theorem insertEntry_dir_nil (cs : Children Bytes) (b : Bytes) :
    insertEntry (Node.dir cs) [] b = Node.dir cs := rfl

theorem insertEntry_dir_one (cs : Children Bytes) (n : String) (b : Bytes) :
    insertEntry (Node.dir cs) [n] b = Node.dir (setChild cs n (Node.file b)) :=
  rfl

theorem insertEntry_dir_deep (cs : Children Bytes) (n m : String)
    (rest : FsPath) (b : Bytes) :
    insertEntry (Node.dir cs) (n :: m :: rest) b
      = Node.dir (setChild cs n
          (insertEntry (asDir (lookupChild cs n)) (m :: rest) b)) := rfl

theorem insertEntry_dir_shape (cs : Children Bytes) (p : FsPath) (b : Bytes) :
    ∃ cs2 : Children Bytes, insertEntry (Node.dir cs) p b = Node.dir cs2 := by
  match p with
  | [] => exact ⟨cs, rfl⟩
  | [n] => exact ⟨setChild cs n (Node.file b), rfl⟩
  | n :: m :: rest => exact ⟨_, insertEntry_dir_deep cs n m rest b⟩

/-- Writing an entry makes its content readable at its own path. -/
theorem fileAt_insertEntry_same :
    ∀ (p : FsPath) (cs : Children Bytes) (b : Bytes), p ≠ [] →
      fileAt (insertEntry (Node.dir cs) p b) p = some b := by
  intro p cs b hp
  match p with
  | [n] =>
      rw [insertEntry_dir_one, fileAt_dir_cons, lookup_setChild_same]
      rfl
  | n :: m :: rest =>
      rw [insertEntry_dir_deep, fileAt_dir_cons, lookup_setChild_same]
      rcases asDir_shape (lookupChild cs n) with ⟨cs3, hcs3⟩
      show fileAt (insertEntry (asDir (lookupChild cs n)) (m :: rest) b)
        (m :: rest) = some b
      rw [hcs3]
      exact fileAt_insertEntry_same (m :: rest) cs3 b (by simp)

theorem pfx_nil_left (q : FsPath) : pfxOf [] q = true := by
  match q with
  | [] => rfl
  | _ :: _ => rfl

theorem pfx_cons_cons (a b : String) (p q : FsPath) :
    pfxOf (a :: p) (b :: q) = (decide (a = b) && pfxOf p q) := rfl

/-- Writing an entry leaves the file content at any path incomparable with
the entry path unchanged. -/
theorem fileAt_insertEntry_other :
    ∀ (p q : FsPath) (t : Node Bytes) (b : Bytes), pfxOf p q = false →
      pfxOf q p = false → fileAt (insertEntry t p b) q = fileAt t q := by
  intro p q t b hp hq
  match p with
  | [] => rw [pfx_nil_left] at hp; cases hp
  | n :: p2 =>
      match t with
      | .file c => rfl
      | .other => rfl
      | .dir cs =>
          match q with
          | [] =>
              rcases insertEntry_dir_shape cs (n :: p2) b with ⟨cs2, hcs2⟩
              rw [hcs2, fileAt_dir_nil, fileAt_dir_nil]
          | n2 :: q2 =>
              by_cases hn : n = n2
              · subst hn
                rw [pfx_cons_cons] at hp hq
                have hp2 : pfxOf p2 q2 = false := by simpa using hp
                have hq2 : pfxOf q2 p2 = false := by simpa using hq
                match p2, hp2, hq2 with
                | [], hp2, hq2 => rw [pfx_nil_left] at hp2; cases hp2
                | m :: rest, hp2, hq2 =>
                    match q2, hp2, hq2 with
                    | [], hp2, hq2 => rw [pfx_nil_left] at hq2; cases hq2
                    | m2 :: rest2, hp2, hq2 =>
                        rw [insertEntry_dir_deep, fileAt_dir_cons,
                          lookup_setChild_same, fileAt_dir_cons]
                        rcases hlk : lookupChild cs n with _ | t2
                        · show fileAt (insertEntry (asDir none) (m :: rest) b)
                            (m2 :: rest2) = none
                          rw [fileAt_insertEntry_other (m :: rest)
                            (m2 :: rest2) (asDir none) b hp2 hq2]
                          rfl
                        · match t2 with
                          | .dir cs3 =>
                              show fileAt (insertEntry
                                  (asDir (some (Node.dir cs3))) (m :: rest) b)
                                (m2 :: rest2) = fileAt (Node.dir cs3) (m2 :: rest2)
                              exact fileAt_insertEntry_other (m :: rest)
                                (m2 :: rest2) (Node.dir cs3) b hp2 hq2
                          | .file c =>
                              show fileAt (insertEntry
                                  (asDir (some (Node.file c))) (m :: rest) b)
                                (m2 :: rest2) = none
                              rw [fileAt_insertEntry_other (m :: rest)
                                (m2 :: rest2) (asDir (some (Node.file c))) b hp2 hq2]
                              rfl
                          | .other =>
                              show fileAt (insertEntry
                                  (asDir (some Node.other)) (m :: rest) b)
                                (m2 :: rest2) = none
                              rw [fileAt_insertEntry_other (m :: rest)
                                (m2 :: rest2) (asDir (some Node.other)) b hp2 hq2]
                              rfl
              · match p2 with
                | [] =>
                    rw [insertEntry_dir_one, fileAt_dir_cons,
                      lookup_setChild_other cs n _ n2 hn, fileAt_dir_cons]
                | m :: rest =>
                    rw [insertEntry_dir_deep, fileAt_dir_cons,
                      lookup_setChild_other cs n _ n2 hn, fileAt_dir_cons]

/-- The extraction step function. -/
def extractStep (t : Node Bytes) (e : FsPath × Bytes) : Node Bytes :=
  insertEntry t e.1 e.2

theorem extractall_eq_foldl (a : Archive) :
    extractall a = a.foldl extractStep (Node.dir .nil) := rfl

theorem foldl_extract_dir_shape :
    ∀ (a : Archive) (cs : Children Bytes),
      ∃ cs2 : Children Bytes, a.foldl extractStep (Node.dir cs) = Node.dir cs2 := by
  intro a cs
  match a with
  | [] => exact ⟨cs, rfl⟩
  | e :: rest =>
      rcases insertEntry_dir_shape cs e.1 e.2 with ⟨cs2, hcs2⟩
      rcases foldl_extract_dir_shape rest cs2 with ⟨cs3, hcs3⟩
      refine ⟨cs3, ?_⟩
      rw [List.foldl_cons]
      rw [show extractStep (Node.dir cs) e = insertEntry (Node.dir cs) e.1 e.2
        from rfl, hcs2]
      exact hcs3

/-- Folding further incomparable entries does not disturb a path. -/
theorem foldl_extract_preserves :
    ∀ (a : Archive) (t : Node Bytes) (p : FsPath),
      (∀ e ∈ a, incomp p e.1 = true) →
      fileAt (a.foldl extractStep t) p = fileAt t p := by
  intro a t p h
  match a with
  | [] => rfl
  | e :: rest =>
      rw [List.foldl_cons]
      have he := band_split (h e (by simp))
      have h1 : pfxOf p e.1 = false := by
        have := he.1
        rwa [Bool.not_eq_true'] at this
      have h2 : pfxOf e.1 p = false := by
        have := he.2
        rwa [Bool.not_eq_true'] at this
      rw [foldl_extract_preserves rest _ p (fun e2 he2 => h e2 (by simp [he2]))]
      exact fileAt_insertEntry_other e.1 p t e.2 h2 h1

/-- Extracting a well-formed archive makes every entry readable at its
archive path with its own bytes. -/
theorem fileAt_extract :
    ∀ (a : Archive) (cs : Children Bytes) (p : FsPath) (b : Bytes),
      (p, b) ∈ a → a.all (fun e => !e.1.isEmpty) = true →
      pairwiseIncomp (a.map Prod.fst) = true →
      fileAt (a.foldl extractStep (Node.dir cs)) p = some b := by
  intro a cs p b hmem hne hpw
  match a with
  | [] => cases hmem
  | e :: rest =>
      have hne2 := band_split (show (!e.1.isEmpty &&
        rest.all (fun e2 => !e2.1.isEmpty)) = true from hne)
      have hpw2 := band_split (show ((rest.map Prod.fst).all (incomp e.1) &&
        pairwiseIncomp (rest.map Prod.fst)) = true from hpw)
      rcases List.mem_cons.mp hmem with rfl | hrest
      · rw [List.foldl_cons]
        have hinc : ∀ e2 ∈ rest, incomp p e2.1 = true := by
          intro e2 he2
          have := List.all_eq_true.mp hpw2.1 e2.1 (List.mem_map_of_mem Prod.fst he2)
          exact this
        rw [foldl_extract_preserves rest _ p hinc]
        have hpn : p ≠ [] := by
          have := hne2.1
          rw [Bool.not_eq_true'] at this
          intro hcon
          rw [hcon] at this
          cases this
        rw [show extractStep (Node.dir cs) (p, b)
          = insertEntry (Node.dir cs) p b from rfl]
        exact fileAt_insertEntry_same p cs b hpn
      · rw [List.foldl_cons]
        rcases insertEntry_dir_shape cs e.1 e.2 with ⟨cs2, hcs2⟩
        rw [show extractStep (Node.dir cs) e = insertEntry (Node.dir cs) e.1 e.2
          from rfl, hcs2]
        exact fileAt_extract rest cs2 p b hrest hne2.2 hpw2.2

/-- The value rebuild_cbz computes on a readable input and writable
destination: the temporary directory count is restored, one acquisition is
recorded, and the written archive is rebuildArchive of the input. -/
theorem rebuild_cbz_ok (a : Archive) (ts : TempState) :
    rebuild_cbz (some a) true ts
      = (⟨ts.live, ts.acquired + 1⟩, Except.ok (rebuildArchive a)) := rfl

/-- C2, counterexample: rebuilding the archive with single entry a/b.jpg
stores its bytes under a/b.jpg/a_b.jpg, not under the section 4.2 name
a/a_b.jpg stated by the claim. -/
theorem claim_C2_counterexample :
    (rebuild_cbz (some [(["a", "b.jpg"], [1])]) true ⟨0, 0⟩).2
        = Except.ok [(["a", "b.jpg", "a_b.jpg"], [1])]
    ∧ (["a", "a_b.jpg"], ([1] : Bytes)) ∉
        rebuildArchive [(["a", "b.jpg"], [1])] :=
  ⟨rfl, by decide⟩

/-- C2 as amended: for every well-formed input archive, rebuild_cbz with a
writable destination succeeds, and for every entry (p, b) of the input the
output archive contains an entry with byte-identical content b stored
under p ++ [flattened p] — the entry name of the corrected section 4.2
rule (the whole original path with the flattened name appended), not the
claimed first-segment form. -/
theorem claim_C2_thm (a : Archive) (p : FsPath) (b : Bytes) (ts : TempState)
    (hwf : wfArchive a = true) (hmem : (p, b) ∈ a) :
    ∃ out, (rebuild_cbz (some a) true ts).2 = Except.ok out
      ∧ (zipJoin p, b) ∈ out := by
  have hwf2 := band_split hwf
  refine ⟨rebuildArchive a, by rw [rebuild_cbz_ok], ?_⟩
  rcases foldl_extract_dir_shape a .nil with ⟨cs, hcs⟩
  have hext : extractall a = Node.dir cs := by
    rw [extractall_eq_foldl]
    exact hcs
  have hfa : fileAt (extractall a) p = some b := by
    rw [extractall_eq_foldl]
    exact fileAt_extract a .nil p b hmem hwf2.1 hwf2.2
  have hmap : (p, zipJoin p) ∈ build_rename_mapping (extractall a) := by
    rw [hext]
    rw [hext] at hfa
    have := mem_buildChildren_of_fileAt cs [] p b []
      (fun e he => by simp at he) hfa
    simpa [build_rename_mapping, buildAux] using this
  rw [rebuildArchive]
  refine List.mem_filterMap.mpr ⟨(p, zipJoin p), hmap, ?_⟩
  rw [hfa]
  rfl

/-- Witness for C2: the amended round trip evaluated on the archive with
the single entry a/b.jpg. -/
theorem claim_C2_witness :
    ∃ out, (rebuild_cbz (some [(["a", "b.jpg"], [1])]) true ⟨0, 0⟩).2
        = Except.ok out
      ∧ (["a", "b.jpg", "a_b.jpg"], ([1] : Bytes)) ∈ out :=
  claim_C2_thm [(["a", "b.jpg"], [1])] ["a", "b.jpg"] [1] ⟨0, 0⟩
    (by decide) (by decide)

/-!
Claim C7: validate_output_path.
-/

/-- C7, counterexample: on a path existing as a regular file,
validate_output_path does not return false — any(path.iterdir()) raises
NotADirectoryError out of the function. -/
theorem claim_C7_counterexample :
    validate_output_path (some (Node.file ([] : Bytes))) false ≠ Except.ok false
    ∧ validate_output_path (some (Node.file ([] : Bytes))) false
        = Except.error PyErr.notADirectoryError :=
  ⟨fun h => Except.noConfusion h, rfl⟩

/-- C7 as amended: validate_output_path returns true when the path does
not exist, or exists as an empty directory, or as a non-empty directory
with force; it returns false for a non-empty directory without force; and
for a path existing as a non-directory it raises NotADirectoryError
instead of returning. -/
theorem claim_C7_thm (f : Bool) :
    validate_output_path (none : Option (Node Bytes)) f = Except.ok true
    ∧ (∀ cs : Children Bytes, validate_output_path (some (Node.dir cs)) f
        = Except.ok (cs.isNil || f))
    ∧ (∀ b : Bytes, validate_output_path (some (Node.file b)) f
        = Except.error PyErr.notADirectoryError)
    ∧ validate_output_path (some (Node.other : Node Bytes)) f
        = Except.error PyErr.notADirectoryError := by
  refine ⟨rfl, ?_, fun b => rfl, rfl⟩
  intro cs
  match cs with
  | .nil => rfl
  | .cons n t rest => cases f <;> rfl

/-!
Claim C8: the scoped temporary extraction directory.
-/

/-- C8, confirmed: every call of rebuild_cbz — with a readable or an
unreadable input, and with a writable or an unwritable destination —
acquires exactly one scoped temporary directory and leaves the number of
live temporary directories unchanged on return: the with-block encloses
every failure path, so the directory is removed before control returns. -/
theorem claim_C8_thm (input : Option Archive) (destWritable : Bool)
    (ts : TempState) :
    (rebuild_cbz input destWritable ts).1.live = ts.live
    ∧ (rebuild_cbz input destWritable ts).1.acquired = ts.acquired + 1 := by
  match input with
  | none => exact ⟨rfl, rfl⟩
  | some a =>
      cases destWritable
      · exact ⟨rfl, rfl⟩
      · exact ⟨rfl, rfl⟩

/-!
Claims C5, C6, C9, C10: process_path.
-/

/-- The empty output directory. -/
def emptyOut : OutFiles := fun _ => none

/-- The initial run state: empty output directory, no events, no pending
exception. -/
def initRun : RunSt := ⟨emptyOut, [], false⟩

/-- Input tree for the C5 failing input: the input directory contains a
single subdirectory named d.cbz. -/
def exTreeC5 : Node Archive := .dir (.cons "d.cbz" (.dir .nil) .nil)

/-- C5, the code bug evaluated on the failing input: with recurse set,
process_path on a directory containing an (empty) subdirectory named d.cbz
first recurses into it, then — the loop body lacking a continue after the
recursive call — falls through to the suffix test and invokes rebuild_cbz
on the DIRECTORY d.cbz, which raises IsADirectoryError and aborts the run,
contradicting the claim that rebuild_cbz is never invoked on a directory
child. -/
theorem claim_C5_thm :
    (process_path exTreeC5 false true initRun).events
        = [Event.rebuildDir "d.cbz"]
    ∧ (process_path exTreeC5 false true initRun).aborted = true
    ∧ (process_path exTreeC5 false false initRun).events = []
    ∧ (process_path exTreeC5 false false initRun).aborted = false :=
  ⟨rfl, rfl, rfl, rfl⟩

/-- Input tree for the C10 demonstration: a single archive file whose
suffix is valid only after lowercasing. -/
def exTreeC10 : Node Archive := .dir (.cons "A.CBZ" (.file []) .nil)

/-- C10, confirmed: the top level never consults the validators — mainRun
(parse_args followed by process_path, with the boolean of
validate_input_path discarded on line 51 and validate_output_path called
nowhere) behaves identically to a bare process_path on every input, and on
a tree that validate_input_path rejects, processing still rebuilds an
archive. -/
theorem claim_C10_thm :
    (∀ (t : Node Archive) (force recurse : Bool) (s : RunSt),
        mainRun t force recurse s = process_path t force recurse s)
    ∧ validate_input_path exTreeC10 false = false
    ∧ (mainRun exTreeC10 false false initRun).events
        = [Event.rebuildFile "A.CBZ" []] :=
  ⟨fun t force recurse s => rfl, by decide, rfl⟩

/-!
Claims C6 and C9: invariants of the walk.
-/

theorem processChildren_cons_file (n : String) (a : Archive)
    (rest : Children Archive) (f r : Bool) (s : RunSt) :
    processChildren (Children.cons n (Node.file a) rest) f r s
      = if s.aborted = true then s
        else processChildren rest f r (stepFile n a f s) := by
  rw [processChildren]

theorem processChildren_cons_dir (n : String) (cs2 rest : Children Archive)
    (f r : Bool) (s : RunSt) :
    processChildren (Children.cons n (Node.dir cs2) rest) f r s
      = if s.aborted = true then s
        else processChildren rest f r
          (if r = true then
             (if (process_path (Node.dir cs2) f r s).aborted = true
              then process_path (Node.dir cs2) f r s
              else stepAfterDir n f (process_path (Node.dir cs2) f r s))
           else s) := by
  rw [processChildren]

theorem processChildren_cons_other (n : String) (rest : Children Archive)
    (f r : Bool) (s : RunSt) :
    processChildren (Children.cons n Node.other rest) f r s
      = if s.aborted = true then s else processChildren rest f r s := by
  rw [processChildren]

/-- Without force, one file step preserves an existing output binding and
adds no event targeting its name. -/
theorem stepFile_noforce (n0 : String) (a : Archive) {s : RunSt} {n : String}
    {c : Archive} (h : s.out n = some c) :
    (stepFile n0 a false s).out n = some c
    ∧ ∀ e ∈ (stepFile n0 a false s).events, e ∈ s.events ∨ e.outName ≠ n := by
  rw [stepFile]
  by_cases hv : validSuffixLower n0 = true
  · rw [if_pos hv]
    by_cases hn : n0 = n
    · subst hn
      rw [if_pos (by rw [h]; rfl)]
      exact ⟨h, fun e he => Or.inl he⟩
    · by_cases his : (s.out n0).isSome = true
      · rw [if_pos (by rw [his]; rfl)]
        exact ⟨h, fun e he => Or.inl he⟩
      · rw [if_neg (by simp [his])]
        refine ⟨?_, ?_⟩
        · show (if n = n0 then some (rebuildArchive a) else s.out n) = some c
          rw [if_neg (fun he => hn he.symm)]
          exact h
        · intro e he
          rcases List.mem_append.mp he with he | he
          · exact Or.inl he
          · rcases List.mem_singleton.mp he with rfl
            exact Or.inr (fun he2 => hn (show n0 = n from he2))
  · rw [if_neg hv]
    exact ⟨h, fun e he => Or.inl he⟩

/-- Without force, the directory fall-through step preserves the output
store entirely and adds no event targeting a bound name. -/
theorem stepAfterDir_noforce (n0 : String) {s : RunSt} {n : String}
    {c : Archive} (h : s.out n = some c) :
    (stepAfterDir n0 false s).out n = some c
    ∧ ∀ e ∈ (stepAfterDir n0 false s).events, e ∈ s.events ∨ e.outName ≠ n := by
  rw [stepAfterDir]
  by_cases hv : validSuffixLower n0 = true
  · rw [if_pos hv]
    by_cases hc : ((s.out n0).isSome && !false) = true
    · rw [if_pos hc]
      exact ⟨h, fun e he => Or.inl he⟩
    · rw [if_neg hc]
      refine ⟨h, ?_⟩
      intro e he
      rcases List.mem_append.mp he with he | he
      · exact Or.inl he
      · rcases List.mem_singleton.mp he with rfl
        refine Or.inr (fun he2 => ?_)
        have hn0 : n0 = n := he2
        subst hn0
        rw [h] at hc
        exact hc rfl
  · rw [if_neg hv]
    exact ⟨h, fun e he => Or.inl he⟩

mutual

/-- Without force, a whole run preserves every existing output binding and
every new event targets an unbound name. -/
theorem process_path_noforce :
    ∀ (t : Node Archive) (r : Bool) (s : RunSt) (n : String) (c : Archive),
      s.out n = some c →
      (process_path t false r s).out n = some c
      ∧ ∀ e ∈ (process_path t false r s).events,
          e ∈ s.events ∨ e.outName ≠ n := by
  intro t r s n c h
  match t with
  | .dir cs => exact processChildren_noforce cs r s n c h
  | .file a => exact ⟨h, fun e he => Or.inl he⟩
  | .other => exact ⟨h, fun e he => Or.inl he⟩

/-- Loop version of process_path_noforce. -/
theorem processChildren_noforce :
    ∀ (cs : Children Archive) (r : Bool) (s : RunSt) (n : String) (c : Archive),
      s.out n = some c →
      (processChildren cs false r s).out n = some c
      ∧ ∀ e ∈ (processChildren cs false r s).events,
          e ∈ s.events ∨ e.outName ≠ n := by
  intro cs r s n c h
  match cs with
  | .nil => exact ⟨h, fun e he => Or.inl he⟩
  | .cons n0 t0 rest =>
      have hstep : ∀ (s1 : RunSt), s1.out n = some c →
          (∀ e ∈ s1.events, e ∈ s.events ∨ e.outName ≠ n) →
          (processChildren rest false r s1).out n = some c
          ∧ ∀ e ∈ (processChildren rest false r s1).events,
              e ∈ s.events ∨ e.outName ≠ n := by
        intro s1 h1 hev
        rcases processChildren_noforce rest r s1 n c h1 with ⟨hout, hevs⟩
        refine ⟨hout, fun e he => ?_⟩
        rcases hevs e he with he2 | he2
        · exact hev e he2
        · exact Or.inr he2
      match t0 with
      | .file a =>
          rw [processChildren_cons_file]
          by_cases hab : s.aborted = true
          · rw [if_pos hab]
            exact ⟨h, fun e he => Or.inl he⟩
          · rw [if_neg hab]
            rcases stepFile_noforce n0 a h with ⟨h1, hev⟩
            exact hstep _ h1 hev
      | .other =>
          rw [processChildren_cons_other]
          by_cases hab : s.aborted = true
          · rw [if_pos hab]
            exact ⟨h, fun e he => Or.inl he⟩
          · rw [if_neg hab]
            exact hstep s h (fun e he => Or.inl he)
      | .dir cs2 =>
          rw [processChildren_cons_dir]
          by_cases hab : s.aborted = true
          · rw [if_pos hab]
            exact ⟨h, fun e he => Or.inl he⟩
          · rw [if_neg hab]
            by_cases hr : r = true
            · rw [if_pos hr]
              rcases process_path_noforce (Node.dir cs2) r s n c h with ⟨h2, hev2⟩
              by_cases hab2 : (process_path (Node.dir cs2) false r s).aborted = true
              · rw [if_pos hab2]
                exact hstep _ h2 hev2
              · rw [if_neg hab2]
                rcases stepAfterDir_noforce n0 h2 with ⟨h3, hev3⟩
                refine hstep _ h3 (fun e he => ?_)
                rcases hev3 e he with he2 | he2
                · exact hev2 e he2
                · exact Or.inr he2
            · rw [if_neg hr]
              exact hstep s h (fun e he => Or.inl he)

end

theorem stepFile_frame (n0 : String) (a : Archive) (f : Bool) (s : RunSt)
    (m : String) :
    ((s.out m).isSome = true → ((stepFile n0 a f s).out m).isSome = true)
    ∧ ((stepFile n0 a f s).out m ≠ s.out m →
        ∃ v, (stepFile n0 a f s).out m = some v
          ∧ Event.rebuildFile m v ∈ (stepFile n0 a f s).events)
    ∧ ∀ e ∈ s.events, e ∈ (stepFile n0 a f s).events := by
  rw [stepFile]
  by_cases hv : validSuffixLower n0 = true
  · rw [if_pos hv]
    by_cases hskip : ((s.out n0).isSome && !f) = true
    · rw [if_pos hskip]
      exact ⟨fun h => h, fun hne => absurd rfl hne, fun e he => he⟩
    · rw [if_neg hskip]
      refine ⟨?_, ?_, ?_⟩
      · intro h
        show (if m = n0 then some (rebuildArchive a) else s.out m).isSome = true
        by_cases hm : m = n0
        · rw [if_pos hm]
          rfl
        · rw [if_neg hm]
          exact h
      · intro hne
        by_cases hm : m = n0
        · subst hm
          refine ⟨rebuildArchive a, ?_, ?_⟩
          · show (if m = m then some (rebuildArchive a) else s.out m)
              = some (rebuildArchive a)
            rw [if_pos rfl]
          · exact List.mem_append_right _ (by simp)
        · exact absurd (show (if m = n0 then some (rebuildArchive a)
            else s.out m) = s.out m by rw [if_neg hm]) hne
      · intro e he
        exact List.mem_append_left _ he
  · rw [if_neg hv]
    exact ⟨fun h => h, fun hne => absurd rfl hne, fun e he => he⟩

theorem stepAfterDir_out (n0 : String) (f : Bool) (s : RunSt) :
    (stepAfterDir n0 f s).out = s.out := by
  rw [stepAfterDir]
  by_cases hv : validSuffixLower n0 = true
  · rw [if_pos hv]
    by_cases hskip : ((s.out n0).isSome && !f) = true
    · rw [if_pos hskip]
    · rw [if_neg hskip]
  · rw [if_neg hv]

theorem stepAfterDir_mono (n0 : String) (f : Bool) (s : RunSt) :
    ∀ e ∈ s.events, e ∈ (stepAfterDir n0 f s).events := by
  intro e he
  rw [stepAfterDir]
  by_cases hv : validSuffixLower n0 = true
  · rw [if_pos hv]
    by_cases hskip : ((s.out n0).isSome && !f) = true
    · rw [if_pos hskip]
      exact he
    · rw [if_neg hskip]
      exact List.mem_append_left _ he
  · rw [if_neg hv]
    exact he

mutual

/-- Frame of a whole run: output bindings are never deleted, any changed
output entry was written by a recorded rebuild of a regular file, and the
event log only grows. -/
theorem process_path_frame :
    ∀ (t : Node Archive) (f r : Bool) (s : RunSt) (m : String),
      ((s.out m).isSome = true → ((process_path t f r s).out m).isSome = true)
      ∧ ((process_path t f r s).out m ≠ s.out m →
          ∃ v, (process_path t f r s).out m = some v
            ∧ Event.rebuildFile m v ∈ (process_path t f r s).events)
      ∧ ∀ e ∈ s.events, e ∈ (process_path t f r s).events := by
  intro t f r s m
  match t with
  | .dir cs => exact processChildren_frame cs f r s m
  | .file a => exact ⟨fun h => h, fun hne => absurd rfl hne, fun e he => he⟩
  | .other => exact ⟨fun h => h, fun hne => absurd rfl hne, fun e he => he⟩

/-- Loop version of process_path_frame. -/
theorem processChildren_frame :
    ∀ (cs : Children Archive) (f r : Bool) (s : RunSt) (m : String),
      ((s.out m).isSome = true →
        ((processChildren cs f r s).out m).isSome = true)
      ∧ ((processChildren cs f r s).out m ≠ s.out m →
          ∃ v, (processChildren cs f r s).out m = some v
            ∧ Event.rebuildFile m v ∈ (processChildren cs f r s).events)
      ∧ ∀ e ∈ s.events, e ∈ (processChildren cs f r s).events := by
  intro cs f r s m
  match cs with
  | .nil => exact ⟨fun h => h, fun hne => absurd rfl hne, fun e he => he⟩
  | .cons n0 t0 rest =>
      have hcomp : ∀ s1 : RunSt,
          ((s.out m).isSome = true → (s1.out m).isSome = true) →
          (s1.out m ≠ s.out m →
            ∃ v, s1.out m = some v ∧ Event.rebuildFile m v ∈ s1.events) →
          (∀ e ∈ s.events, e ∈ s1.events) →
          ((s.out m).isSome = true →
            ((processChildren rest f r s1).out m).isSome = true)
          ∧ ((processChildren rest f r s1).out m ≠ s.out m →
              ∃ v, (processChildren rest f r s1).out m = some v
                ∧ Event.rebuildFile m v ∈ (processChildren rest f r s1).events)
          ∧ ∀ e ∈ s.events, e ∈ (processChildren rest f r s1).events := by
        intro s1 hpres hchg hmono
        rcases processChildren_frame rest f r s1 m with ⟨ih1, ih2, ih3⟩
        refine ⟨fun h => ih1 (hpres h), ?_, fun e he => ih3 e (hmono e he)⟩
        intro hne
        by_cases hc : (processChildren rest f r s1).out m = s1.out m
        · rcases hchg (fun he => hne (hc.trans he)) with ⟨v, hv, hev⟩
          exact ⟨v, hc.trans hv, ih3 _ hev⟩
        · exact ih2 hc
      match t0 with
      | .file a =>
          rw [processChildren_cons_file]
          by_cases hab : s.aborted = true
          · rw [if_pos hab]
            exact ⟨fun h => h, fun hne => absurd rfl hne, fun e he => he⟩
          · rw [if_neg hab]
            rcases stepFile_frame n0 a f s m with ⟨h1, h2, h3⟩
            exact hcomp _ h1 h2 h3
      | .other =>
          rw [processChildren_cons_other]
          by_cases hab : s.aborted = true
          · rw [if_pos hab]
            exact ⟨fun h => h, fun hne => absurd rfl hne, fun e he => he⟩
          · rw [if_neg hab]
            exact hcomp s (fun h => h) (fun hne => absurd rfl hne)
              (fun e he => he)
      | .dir cs2 =>
          rw [processChildren_cons_dir]
          by_cases hab : s.aborted = true
          · rw [if_pos hab]
            exact ⟨fun h => h, fun hne => absurd rfl hne, fun e he => he⟩
          · rw [if_neg hab]
            by_cases hr : r = true
            · rw [if_pos hr]
              rcases process_path_frame (Node.dir cs2) f r s m with ⟨p1, p2, p3⟩
              by_cases hab2 : (process_path (Node.dir cs2) f r s).aborted = true
              · rw [if_pos hab2]
                exact hcomp _ p1 p2 p3
              · rw [if_neg hab2]
                refine hcomp _ ?_ ?_ ?_
                · intro h
                  rw [stepAfterDir_out]
                  exact p1 h
                · intro hne
                  rw [stepAfterDir_out] at hne ⊢
                  rcases p2 hne with ⟨v, hv, hev⟩
                  exact ⟨v, hv, stepAfterDir_mono n0 f _ _ hev⟩
                · intro e he
                  exact stepAfterDir_mono n0 f _ _ (p3 e he)
            · rw [if_neg hr]
              exact hcomp s (fun h => h) (fun hne => absurd rfl hne)
                (fun e he => he)

end

/-- With force set, an eligible regular file child is never skipped: the
loop step rebuilds it and overwrites the destination unconditionally. -/
theorem processChildren_force_rebuild (n : String) (a : Archive)
    (rest : Children Archive) (r : Bool) (s : RunSt)
    (hab : s.aborted = false) (hv : validSuffixLower n = true) :
    processChildren (Children.cons n (Node.file a) rest) true r s
      = processChildren rest true r
          ⟨updateFn s.out n (rebuildArchive a),
           s.events ++ [Event.rebuildFile n (rebuildArchive a)], false⟩ := by
  rw [processChildren_cons_file, if_neg (by simp [hab])]
  congr 1
  rw [stepFile, if_pos hv, if_neg (by simp)]

/-!
Claim C6.
-/

/-- C6, confirmed: without force, a run of process_path preserves every
existing output file binding unchanged and never targets its name with a
rebuild (the already-processed short-circuit); with force, the loop step
for an eligible regular file child rebuilds it and overwrites the
destination unconditionally. -/
theorem claim_C6_thm :
    (∀ (t : Node Archive) (r : Bool) (s : RunSt) (n : String) (c : Archive),
        s.out n = some c → (process_path t false r s).out n = some c)
    ∧ (∀ (t : Node Archive) (r : Bool) (s : RunSt) (n : String) (c : Archive),
        s.out n = some c → ∀ e ∈ (process_path t false r s).events,
          e ∈ s.events ∨ e.outName ≠ n)
    ∧ (∀ (n : String) (a : Archive) (rest : Children Archive) (r : Bool)
        (s : RunSt), s.aborted = false → validSuffixLower n = true →
        processChildren (Children.cons n (Node.file a) rest) true r s
          = processChildren rest true r
              ⟨updateFn s.out n (rebuildArchive a),
               s.events ++ [Event.rebuildFile n (rebuildArchive a)], false⟩) :=
  ⟨fun t r s n c h => (process_path_noforce t r s n c h).1,
   fun t r s n c h => (process_path_noforce t r s n c h).2,
   processChildren_force_rebuild⟩

/-- Output directory already containing A.CBZ (with empty-archive
content), as left by an earlier run. -/
def exRun : RunSt := ⟨updateFn emptyOut "A.CBZ" [], [], false⟩

/-- Input tree with two eligible files, one of which collides with the
existing output entry A.CBZ. -/
def exTreeC6 : Node Archive :=
  .dir (.cons "A.CBZ" (.file [(["p.jpg"], [5])])
    (.cons "B.CBZ" (.file []) .nil))

/-- Witness for C6 on concrete data: the pre-existing output entry
survives a forceless run untouched, the only event of that run targets the
other name, and a force step overwrites unconditionally. -/
theorem claim_C6_witness :
    (process_path exTreeC6 false false exRun).out "A.CBZ" = some []
    ∧ (Event.rebuildFile "B.CBZ" [] ∈ exRun.events
        ∨ (Event.rebuildFile "B.CBZ" []).outName ≠ "A.CBZ")
    ∧ processChildren (Children.cons "x.cbz" (Node.file []) Children.nil)
        true false initRun
      = processChildren Children.nil true false
          ⟨updateFn initRun.out "x.cbz" (rebuildArchive []),
           initRun.events ++ [Event.rebuildFile "x.cbz" (rebuildArchive [])],
           false⟩ :=
  ⟨claim_C6_thm.1 exTreeC6 false exRun "A.CBZ" [] rfl,
   claim_C6_thm.2.1 exTreeC6 false exRun "A.CBZ" [] rfl
     (Event.rebuildFile "B.CBZ" []) (by decide),
   claim_C6_thm.2.2 "x.cbz" [] Children.nil false initRun rfl rfl⟩

/-!
Claim C9.
-/

/-- C9, confirmed for the embedded effects: a run of process_path never
deletes an output entry, and every change to the output directory is a
write of a rebuilt archive recorded as a rebuild event — the input tree is
a pure value in the model, read but never written, so the only filesystem
effects are entries created under the output directory (the scoped
temporary directory of each rebuild is accounted for by claim C8). -/
theorem claim_C9_thm :
    (∀ (t : Node Archive) (f r : Bool) (s : RunSt) (m : String),
        (s.out m).isSome = true →
        ((process_path t f r s).out m).isSome = true)
    ∧ (∀ (t : Node Archive) (f r : Bool) (s : RunSt) (m : String),
        (process_path t f r s).out m ≠ s.out m →
        ∃ v, (process_path t f r s).out m = some v
          ∧ Event.rebuildFile m v ∈ (process_path t f r s).events) :=
  ⟨fun t f r s m => (process_path_frame t f r s m).1,
   fun t f r s m => (process_path_frame t f r s m).2.1⟩

/-- Witness for C9 on concrete data: the pre-existing entry stays present,
and the entry the run creates is tied to its rebuild event. -/
theorem claim_C9_witness :
    ((process_path exTreeC6 false false exRun).out "A.CBZ").isSome = true
    ∧ ∃ v, (process_path exTreeC10 false false initRun).out "A.CBZ" = some v
        ∧ Event.rebuildFile "A.CBZ" v
            ∈ (process_path exTreeC10 false false initRun).events :=
  ⟨claim_C9_thm.1 exTreeC6 false false exRun "A.CBZ" rfl,
   claim_C9_thm.2 exTreeC10 false false initRun "A.CBZ" (by decide)⟩
